import Mathlib

/-!
# Verification of the BusTub buffer-pool subsystem

A shallow embedding of the repository's three core components:

* `src/buffer/lru_k_replacer.cpp`  — the LRU-K replacer (`LRUK` namespace);
* `src/buffer/buffer_pool_manager.cpp` — the buffer pool manager (`BPM` namespace);
* `src/unnamed/part_001` — the second copy of the buffer pool manager
  (`BPMAlt` namespace);
* `src/storage/page/page_guard.cpp` — the page guards.

Modelling conventions, applied uniformly:

* Machine integers are `Nat`/`Int`.  `frame_id_t` values are `Nat` (the code
  asserts `frame_id >= 0` on every replacer entry point); `page_id_t` is `Int`
  with `INVALID_PAGE_ID = -1`.
* Mutexes and per-frame latches only serialize concurrent callers; the model
  is the sequential semantics of each operation body, so latch/unlatch calls
  and the single `std::thread`+`join` in `WriteBackPage` are identities.
* The wall-clock timestamp `std::chrono::system_clock::now()` read by
  `RecordAccess` is modelled as the strictly monotone counter that the spec
  (§4.1 Timestamps) prescribes: each `RecordAccess` consumes `ts` and stores
  `ts + 1`.
* `std::unordered_map` containers (`node_store_`, `page_table_`) are
  association lists; iteration order is modelled as insertion order.
  `std::list` containers (`lru_list_`, `k_list_`, `free_list_`) are `List`s
  whose front is the list head.  `dict_` (frame id → list iterator) is split
  into `dictP` (an entry exists, i.e. `dict_.count` is non-zero) and `dictV`
  (the stored iterator is still valid: the element it points to has not been
  erased).  Erasing or splicing through a present-but-invalidated iterator is
  undefined behaviour in C++ and is modelled as the operation getting stuck.
* A failed `BUSTUB_ASSERT`, a `std::deque::pop_back`/`back` on an empty
  container, a `.at` on a missing key, a null-pointer dereference, and every
  other undefined behaviour make the modelled operation return `none`
  ("stuck"); `throw ExecutionException` in `Remove` is the distinct
  `RmRes.exn` outcome.
* Calls into the injected disk manager are recorded observably:
  `WritePage` appends the page id to `writeLog` and updates the `disk`
  association list, `ReadPage` reads from `disk`, and `DeallocatePage`
  (declared in a header outside `src/`; the spec §6 specifies it as external
  id-space management with no effect on pool state) appends to `deallocLog`.
* `std::list::sort` (stable) is modelled by an insertion sort on the same
  comparator; in every state reachable without undefined behaviour the sort
  keys are pairwise distinct, so any comparison sort yields the same list.
-/

/-! ## LRU-K replacer (`src/buffer/lru_k_replacer.cpp`) -/

/-- One `LRUKNode`: `k_` (number of recorded accesses, capped at `K`),
`history_` (timestamps, newest first) and `is_evictable_`.
Modelled from the spec: the `LRUKNode(frame_id)` constructor lives in the
header (absent from `src/`); per spec §3/§4.1 a freshly tracked node has an
empty history and is not evictable, and the assertion
`node->k_ == node->history_.size()` in `RecordAccess` forces `k_ = 0`. -/
structure LNode where
  k : Nat
  history : List Nat
  ev : Bool
deriving DecidableEq, Repr

/-- The `LRUKReplacer` state: `replacer_size_`, `k_`, `node_store_`,
`lru_list_`, `k_list_`, the two components of `dict_`, `curr_size_` and the
timestamp counter. -/
structure RState where
  numFrames : Nat
  K : Nat
  nodes : List (Nat × LNode)
  lru : List Nat
  klist : List Nat
  dictP : List Nat
  dictV : List Nat
  curr : Nat
  ts : Nat
deriving DecidableEq, Repr

namespace LRUK

/-- `node_store_` lookup. -/
def lookupN : List (Nat × LNode) → Nat → Option LNode
  | [], _ => none
  | p :: t, f => if p.1 = f then some p.2 else lookupN t f

/-- `node_store_[f] = nd` (overwrite if present, append otherwise). -/
def setN : List (Nat × LNode) → Nat → LNode → List (Nat × LNode)
  | [], f, nd => [(f, nd)]
  | p :: t, f, nd => if p.1 = f then (f, nd) :: t else p :: setN t f nd

def node? (s : RState) (f : Nat) : Option LNode := lookupN s.nodes f

/-- The history of `f`'s node (empty if untracked). -/
def histOf (s : RState) (f : Nat) : List Nat := ((node? s f).map LNode.history).getD []

/-- Sort key used for `lru_list_`: `history_.back()`, the oldest recorded
access (the comparator is only evaluated on non-empty histories; see
`sortGuard`). -/
def oldestKey (s : RState) (f : Nat) : Nat := (histOf s f).getLast?.getD 0

/-- Sort key used for `k_list_`: `history_.front()`, the newest recorded
access. -/
def newestKey (s : RState) (f : Nat) : Nat := (histOf s f).headD 0

/-- Insert `a` in front of the first element whose key is not larger
(descending insertion step). -/
def insertByKey (key : Nat → Nat) (a : Nat) : List Nat → List Nat
  | [] => [a]
  | b :: t => if key b ≤ key a then a :: b :: t else b :: insertByKey key a t

/-- Insertion sort, descending by `key`: models
`list.sort(cmp)` with `cmp l r = key l > key r`. -/
def sortByKey (key : Nat → Nat) : List Nat → List Nat
  | [] => []
  | a :: t => insertByKey key a (sortByKey key t)

/-- `list.sort(cmp)` where the comparator reads each node's history: on a
list of length ≥ 2 every element is compared at least once, so a node with
an empty history makes the comparator call `.front()`/`.back()` on an empty
container — undefined behaviour, modelled as `none`. -/
def sortGuard (s : RState) (key : Nat → Nat) (l : List Nat) : Option (List Nat) :=
  if 2 ≤ l.length ∧ l.any (fun f => (histOf s f).isEmpty) then none
  else some (sortByKey key l)

/-- `node_store_[frame_id] = LRUKNode(frame_id)` when `count == 0`
(see `LNode` for the constructor defaults). -/
def ensureNode (s : RState) (f : Nat) : RState :=
  match node? s f with
  | some _ => s
  | none => { s with nodes := setN s.nodes f ⟨0, [], false⟩ }

/-- `LRUKReplacer::RecordAccess` (lru_k_replacer.cpp:45-78).  `ensureNode`
only adds a missing node entry, so writing `s.K`, `s.lru`, … below for the
fields of the ensured state is exact. -/
def RecordAccess (s : RState) (f : Nat) : Option RState :=
  if f < s.numFrames then
    match node? (ensureNode s f) f with
    | none => none
    | some nd =>
      if nd.k ≤ s.K ∧ nd.k = nd.history.length then
        if nd.k = s.K then
          if nd.history = [] then none
          else
            if nd.ev = true then
              if f ∈ s.dictP ∧ f ∈ s.dictV ∧ f ∈ s.klist then
                some { ensureNode s f with
                       nodes := setN (ensureNode s f).nodes f
                         { nd with history := s.ts :: nd.history.dropLast },
                       ts := s.ts + 1, klist := f :: s.klist.erase f }
              else none
            else
              some { ensureNode s f with
                     nodes := setN (ensureNode s f).nodes f
                       { nd with history := s.ts :: nd.history.dropLast },
                     ts := s.ts + 1 }
        else
          if nd.ev = true then
            if nd.k + 1 = s.K then
              if f ∈ s.dictP ∧ f ∈ s.dictV ∧ f ∈ s.lru then
                some { ensureNode s f with
                       nodes := setN (ensureNode s f).nodes f
                         { nd with k := nd.k + 1, history := s.ts :: nd.history },
                       ts := s.ts + 1, klist := f :: s.klist, lru := s.lru.erase f }
              else none
            else
              if f ∈ s.dictP then
                some { ensureNode s f with
                       nodes := setN (ensureNode s f).nodes f
                         { nd with k := nd.k + 1, history := s.ts :: nd.history },
                       ts := s.ts + 1 }
              else
                some { ensureNode s f with
                       nodes := setN (ensureNode s f).nodes f
                         { nd with k := nd.k + 1, history := s.ts :: nd.history },
                       ts := s.ts + 1, lru := f :: s.lru,
                       dictP := f :: s.dictP, dictV := f :: s.dictV }
          else
            some { ensureNode s f with
                   nodes := setN (ensureNode s f).nodes f
                     { nd with k := nd.k + 1, history := s.ts :: nd.history },
                   ts := s.ts + 1 }
      else none
  else none

/-- `LRUKReplacer::SetEvictable` (lru_k_replacer.cpp:80-122).  Note that the
warm branch (`node->k_ == k_`) pushes onto `k_list_` without creating a
`dict_` entry.  The C++ comparator runs after the `is_evictable_` flip, but
it reads only histories, which the flip leaves untouched, so keying the sort
on the pre-flip state is exact. -/
def SetEvictable (s : RState) (f : Nat) (b : Bool) : Option RState :=
  if f < s.numFrames then
    match node? (ensureNode s f) f with
    | none => none
    | some nd =>
      if b = nd.ev then some (ensureNode s f)
      else
        if b = true then
          if nd.k = s.K then
            match sortGuard (ensureNode s f) (newestKey (ensureNode s f)) (f :: s.klist) with
            | none => none
            | some kl =>
              some { ensureNode s f with
                     nodes := setN (ensureNode s f).nodes f { nd with ev := b },
                     klist := kl, curr := s.curr + 1 }
          else
            match sortGuard (ensureNode s f) (oldestKey (ensureNode s f)) (f :: s.lru) with
            | none => none
            | some ll =>
              some { ensureNode s f with
                     nodes := setN (ensureNode s f).nodes f { nd with ev := b },
                     lru := ll, dictP := f :: s.dictP, dictV := f :: s.dictV,
                     curr := s.curr + 1 }
        else
          if f ∈ s.dictP ∧ f ∈ s.dictV then
            if nd.k = s.K then
              if f ∈ s.klist then
                some { ensureNode s f with
                       nodes := setN (ensureNode s f).nodes f { nd with ev := b },
                       klist := s.klist.erase f, dictP := s.dictP.erase f,
                       dictV := s.dictV.erase f, curr := s.curr - 1 }
              else none
            else
              if f ∈ s.lru then
                some { ensureNode s f with
                       nodes := setN (ensureNode s f).nodes f { nd with ev := b },
                       lru := s.lru.erase f, dictP := s.dictP.erase f,
                       dictV := s.dictV.erase f, curr := s.curr - 1 }
              else none
          else none
  else none

/-- `LRUKReplacer::Evict` (lru_k_replacer.cpp:19-43): returns `some (none, s)`
for "no victim" (`curr_size_ == 0`), `some (some f, s')` for an eviction.
Popping invalidates the victim's `dict_` iterator (the entry itself is not
erased), so only `dictV` shrinks. -/
def Evict (s : RState) : Option (Option Nat × RState) :=
  if s.curr = 0 then some (none, s)
  else
    match s.lru.getLast? with
    | some f =>
      match node? s f with
      | none => none
      | some nd =>
        some (some f, { s with lru := s.lru.dropLast,
                               nodes := setN s.nodes f { nd with ev := false, history := [], k := 0 },
                               curr := s.curr - 1, dictV := s.dictV.erase f })
    | none =>
      match s.klist.getLast? with
      | none => none
      | some f =>
        match node? s f with
        | none => none
        | some nd =>
          some (some f, { s with klist := s.klist.dropLast,
                                 nodes := setN s.nodes f { nd with ev := false, history := [], k := 0 },
                                 curr := s.curr - 1, dictV := s.dictV.erase f })

/-- Outcome of `LRUKReplacer::Remove`: normal return, the
`ExecutionException` (`NON_EVICTABLE_REMOVE`), or an assertion failure /
undefined behaviour. -/
inductive RmRes where
  | ok (s : RState)
  | exn (s : RState)
  | stuck
deriving DecidableEq, Repr

/-- `LRUKReplacer::Remove` (lru_k_replacer.cpp:124-151). -/
def Remove (s : RState) (f : Nat) : RmRes :=
  if f < s.numFrames then
    match node? s f with
    | none => .ok s
    | some nd =>
      if nd.ev = true then
        if f ∈ s.dictP ∧ f ∈ s.dictV then
          if nd.k = s.K then
            if f ∈ s.klist then
              .ok { s with klist := s.klist.erase f,
                           dictP := s.dictP.erase f, dictV := s.dictV.erase f,
                           curr := s.curr - 1, nodes := setN s.nodes f ⟨0, [], false⟩ }
            else .stuck
          else
            if f ∈ s.lru then
              .ok { s with lru := s.lru.erase f,
                           dictP := s.dictP.erase f, dictV := s.dictV.erase f,
                           curr := s.curr - 1, nodes := setN s.nodes f ⟨0, [], false⟩ }
            else .stuck
        else .stuck
      else .exn s
  else .stuck

/-- `LRUKReplacer::Size`. -/
def Size (s : RState) : Nat := s.curr

/-- `LRUKReplacer(num_frames, k)`. -/
def initR (n k : Nat) : RState := ⟨n, k, [], [], [], [], [], 0, 0⟩

/-- Replacer states reachable from construction through the public API
without hitting an assertion failure or undefined behaviour.  A `Remove`
that throws leaves the state unchanged, so it adds no new states. -/
inductive Reach : RState → Prop where
  | init : ∀ n k, Reach (initR n k)
  | ra : ∀ s f s', Reach s → RecordAccess s f = some s' → Reach s'
  | se : ∀ s f b s', Reach s → SetEvictable s f b = some s' → Reach s'
  | evt : ∀ s r s', Reach s → Evict s = some (r, s') → Reach s'
  | rm : ∀ s f s', Reach s → Remove s f = RmRes.ok s' → Reach s'

/-- `f` is tracked, evictable, and has fewer than `K` recorded accesses
(the "warmup set" of spec §4.1). -/
def warmupEvB (s : RState) (f : Nat) : Bool :=
  match node? s f with
  | some nd => nd.ev && decide (nd.k < s.K)
  | none => false

end LRUK

/-! ## Page guards (`src/storage/page/page_guard.cpp`) -/

/-- A `BasicPageGuard`: `bpm_` and `page_` are null together (the guard's own
`BUSTUB_ASSERT`), so both are modelled by one `Option` holding the id of the
pinned page; `is_dirty_` is the flag the guard records.
Modelled from the spec: the member that sets the flag lives in the header
(absent from `src/`); per spec §4.3 basic and write guards "expose a way to
mark the held page dirty", modelled by constructing a guard whose `is_dirty`
field is `true`. -/
structure BasicPageGuard where
  page : Option Int
  is_dirty : Bool
deriving DecidableEq, Repr

/-- `BasicPageGuard::Drop` (page_guard.cpp:12-21).  Returns the
`UnpinPage(page_id, is_dirty)` call it issues (if any) together with the
guard after the drop.  Note the source sets `is_dirty_ = false` *before*
reading it for the unpin call. -/
def BasicPageGuard.Drop (g : BasicPageGuard) : Option (Int × Bool) × BasicPageGuard :=
  let g1 : BasicPageGuard := { g with is_dirty := false }
  match g1.page with
  | none => (none, g1)
  | some pid => (some (pid, g1.is_dirty), { page := none, is_dirty := false })

/-- A `WritePageGuard` wraps a `BasicPageGuard` (`guard_`). -/
structure WritePageGuard where
  guard : BasicPageGuard
deriving DecidableEq, Repr

/-- `WritePageGuard::Drop` (page_guard.cpp:67-72): `WUnlatch` (a latch
operation, outside the sequential model) and then the basic drop. -/
def WritePageGuard.Drop (g : WritePageGuard) : Option (Int × Bool) × WritePageGuard :=
  let r := g.guard.Drop
  (r.1, ⟨r.2⟩)

/-! ## Buffer pool manager: shared state -/

/-- `INVALID_PAGE_ID` (header constant; the sentinel stored in empty
frames). -/
def INVALID_PAGE_ID : Int := -1

/-- One `Page` object of the `pages_` array: `page_id_`, `pin_count_`,
`is_dirty_` and the data buffer (abstracted to one `Nat`). -/
structure Page where
  page_id : Int
  pin_count : Nat
  is_dirty : Bool
  data : Nat
deriving DecidableEq, Repr

/-- The `BufferPoolManager` state, together with the observable interaction
with the injected disk manager (`disk`, `writeLog`, `deallocLog`). -/
structure BPMState where
  pool_size : Nat
  pages : List Page
  page_table : List (Int × Nat)
  free_list : List Nat
  next_page_id : Int
  repl : RState
  disk : List (Int × Nat)
  writeLog : List Int
  deallocLog : List Int
deriving DecidableEq, Repr

/-- `page_table_` lookup (`count`/`at`). -/
def lookupI : List (Int × Nat) → Int → Option Nat
  | [], _ => none
  | p :: t, k => if p.1 = k then some p.2 else lookupI t k

/-- `page_table_.erase(k)`. -/
def eraseI : List (Int × Nat) → Int → List (Int × Nat)
  | [], _ => []
  | p :: t, k => if p.1 = k then t else p :: eraseI t k

/-- `page_table_.emplace(k, v)`: inserts only when the key is absent. -/
def emplaceI (l : List (Int × Nat)) (k : Int) (v : Nat) : List (Int × Nat) :=
  if (lookupI l k).isSome then l else l ++ [(k, v)]

/-- `disk` store update used by `WritePage`. -/
def upsertI : List (Int × Nat) → Int → Nat → List (Int × Nat)
  | [], k, v => [(k, v)]
  | p :: t, k, v => if p.1 = k then (k, v) :: t else p :: upsertI t k v

/-- `disk_manager_->WritePage(pid, data)`: durable, and observable in
`writeLog`. -/
def WritePageD (s : BPMState) (pid : Int) (d : Nat) : BPMState :=
  { s with disk := upsertI s.disk pid d, writeLog := s.writeLog ++ [pid] }

/-- What `disk_manager_->ReadPage(pid, buf)` places in the buffer. -/
def ReadPageD (s : BPMState) (pid : Int) : Nat := (lookupI s.disk pid).getD 0

/-- `BufferPoolManager(pool_size, disk, k, log)`: all frames empty and on the
free list. -/
def initBPM (n k : Nat) : BPMState :=
  ⟨n, List.replicate n ⟨INVALID_PAGE_ID, 0, false, 0⟩, [], List.range n, 0,
   LRUK.initR n k, [], [], []⟩

/-! ## Buffer pool manager, copy 1 (`src/buffer/buffer_pool_manager.cpp`) -/

namespace BPM

/-- `BufferPoolManager::GetPage` (buffer_pool_manager.cpp:42-49): index of
the first frame whose `page_id_` matches, scanning `pages_`. -/
def GetPage (s : BPMState) (pid : Int) : Option Nat :=
  s.pages.findIdx? (fun p => p.page_id = pid)

/-- `BufferPoolManager::GetPageId` (buffer_pool_manager.cpp:51-58): first key
of `page_table_` mapped to `fid`, else `INVALID_PAGE_ID`. -/
def GetPageId (s : BPMState) (fid : Nat) : Int :=
  match s.page_table.find? (fun e => e.2 = fid) with
  | some e => e.1
  | none => INVALID_PAGE_ID

/-- `BufferPoolManager::GetFreePage` (buffer_pool_manager.cpp:60-67): index
of the first frame holding `INVALID_PAGE_ID`. -/
def GetFreePage (s : BPMState) : Option Nat :=
  s.pages.findIdx? (fun p => p.page_id = INVALID_PAGE_ID)

/-- `BufferPoolManager::WriteBackPage` (buffer_pool_manager.cpp:69-84):
writes the frame holding `pid` back iff it is dirty (the flag is not
cleared); returns its index.  The spawned thread is joined immediately, so
the disk write is sequential. -/
def WriteBackPage (s : BPMState) (pid : Int) : Option (Nat × BPMState) :=
  match GetPage s pid with
  | none => none
  | some i =>
    match s.pages.get? i with
    | none => none
    | some pg => some (i, if pg.is_dirty then WritePageD s pid pg.data else s)

/-- `BufferPoolManager::AllocFrame` (buffer_pool_manager.cpp:86-119).
Returns `some (none, s)` for the `nullptr` result, `some (some (idx, fid), s')`
on success where `idx` is the index of the returned `Page*` and `fid` the
chosen `frame_id` (the code assumes they coincide; they can differ), and
`none` when a `BUSTUB_ASSERT` fails or the replacer gets stuck. -/
def AllocFrame (s : BPMState) (pid : Int) : Option (Option (Nat × Nat) × BPMState) :=
  if s.free_list.isEmpty then
    match LRUK.Evict s.repl with
    | none => none
    | some (none, r') => some (none, { s with repl := r' })
    | some (some fid, r') =>
      let s1 := { s with repl := r' }
      let old := GetPageId s1 fid
      if old = INVALID_PAGE_ID then none
      else
        match WriteBackPage s1 old with
        | none => none
        | some (idx, s2) =>
          let s3 := { s2 with page_table := eraseI s2.page_table old }
          match s3.pages.get? idx with
          | none => none
          | some pg =>
            let s4 := { s3 with
              pages := s3.pages.set idx { pg with page_id := pid, is_dirty := false, pin_count := 1 } }
            match LRUK.SetEvictable s4.repl fid false with
            | none => none
            | some r2 =>
              some (some (idx, fid),
                { s4 with repl := r2, page_table := emplaceI s4.page_table pid fid })
  else
    match s.free_list with
    | [] => none
    | fid :: rest =>
      let s1 := { s with free_list := rest }
      match GetFreePage s1 with
      | none => none
      | some idx =>
        match s1.pages.get? idx with
        | none => none
        | some pg =>
          let s2 := { s1 with
            pages := s1.pages.set idx { pg with page_id := pid, is_dirty := false, pin_count := 1 } }
          match LRUK.SetEvictable s2.repl fid false with
          | none => none
          | some r2 =>
            some (some (idx, fid),
              { s2 with repl := r2, page_table := emplaceI s2.page_table pid fid })

/-- `BufferPoolManager::NewPage` (buffer_pool_manager.cpp:121-136): allocate
an id, acquire a frame, zero it and record the access.  Result carries the
out-parameter `*page_id` and the returned frame index. -/
def NewPage (s : BPMState) : Option (Option (Int × Nat) × BPMState) :=
  let pid := s.next_page_id
  let s0 := { s with next_page_id := s.next_page_id + 1 }
  match AllocFrame s0 pid with
  | none => none
  | some (none, s1) => some (none, s1)
  | some (some (idx, _fid), s1) =>
    match s1.pages.get? idx with
    | none => none
    | some pg =>
      let s2 := { s1 with pages := s1.pages.set idx { pg with data := 0 } }
      match lookupI s2.page_table pid with
      | none => none
      | some fid2 =>
        match LRUK.RecordAccess s2.repl fid2 with
        | none => none
        | some r' => some (some (pid, idx), { s2 with repl := r' })

/-- `BufferPoolManager::FetchPage` (buffer_pool_manager.cpp:138-166): on a
hit, pin and mark not-evictable; on a miss, acquire a frame and read from
disk; record the access in both cases. -/
def FetchPage (s : BPMState) (pid : Int) : Option (Option Nat × BPMState) :=
  if (lookupI s.page_table pid).isSome then
    match lookupI s.page_table pid with
    | none => none
    | some fid =>
      match GetPage s pid with
      | none => none
      | some idx =>
        match s.pages.get? idx with
        | none => none
        | some pg =>
          let s1 := { s with pages := s.pages.set idx { pg with pin_count := pg.pin_count + 1 } }
          match LRUK.SetEvictable s1.repl fid false with
          | none => none
          | some r1 =>
            match LRUK.RecordAccess r1 fid with
            | none => none
            | some r2 => some (some idx, { s1 with repl := r2 })
  else
    match AllocFrame s pid with
    | none => none
    | some (none, s1) => some (none, s1)
    | some (some (idx, _fid), s1) =>
      match lookupI s1.page_table pid with
      | none => none
      | some fid =>
        match s1.pages.get? idx with
        | none => none
        | some pg =>
          let s2 := { s1 with pages := s1.pages.set idx { pg with data := ReadPageD s1 pid } }
          match LRUK.RecordAccess s2.repl fid with
          | none => none
          | some r' => some (some idx, { s2 with repl := r' })

/-- `BufferPoolManager::UnpinPage` (buffer_pool_manager.cpp:168-197).  The
dirty flag is overwritten: `page->is_dirty_ = is_dirty`. -/
def UnpinPage (s : BPMState) (pid : Int) (is_dirty : Bool) : Option (Bool × BPMState) :=
  if (lookupI s.page_table pid).isSome then
    match GetPage s pid with
    | none => none
    | some idx =>
      match lookupI s.page_table pid with
      | none => none
      | some fid =>
        match s.pages.get? idx with
        | none => none
        | some pg =>
          if pg.pin_count = 0 then some (false, s)
          else
            let s1 := { s with
              pages := s.pages.set idx { pg with pin_count := pg.pin_count - 1, is_dirty := is_dirty } }
            if pg.pin_count - 1 = 0 then
              match LRUK.SetEvictable s1.repl fid true with
              | none => none
              | some r' => some (true, { s1 with repl := r' })
            else some (true, s1)
  else some (false, s)

/-- `BufferPoolManager::FlushPage` (buffer_pool_manager.cpp:199-213): write
the frame's bytes unconditionally (no dirty-flag reset), then record an
access. -/
def FlushPage (s : BPMState) (pid : Int) : Option (Bool × BPMState) :=
  match GetPage s pid with
  | none => some (false, s)
  | some idx =>
    match s.pages.get? idx with
    | none => none
    | some pg =>
      let s1 := WritePageD s pid pg.data
      match lookupI s1.page_table pid with
      | none => none
      | some fid =>
        match LRUK.RecordAccess s1.repl fid with
        | none => none
        | some r' => some (true, { s1 with repl := r' })

/-- `BufferPoolManager::DeletePage` (buffer_pool_manager.cpp:230-263).  No
replacer call is made: the victim's node keeps its history and its
evictable flag. -/
def DeletePage (s : BPMState) (pid : Int) : Option (Bool × BPMState) :=
  if (lookupI s.page_table pid).isSome then
    match GetPage s pid with
    | none => none
    | some idx =>
      match s.pages.get? idx with
      | none => none
      | some pg =>
        if pg.pin_count ≠ 0 then some (false, s)
        else
          let s1 := if pg.is_dirty then WritePageD s pid pg.data else s
          let pgA := if pg.is_dirty then { pg with is_dirty := false } else pg
          let s2 := { s1 with
            pages := s1.pages.set idx { pgA with data := 0, page_id := INVALID_PAGE_ID } }
          match lookupI s2.page_table pid with
          | none => none
          | some fid =>
            some (true, { s2 with free_list := s2.free_list ++ [fid],
                                  page_table := eraseI s2.page_table pid,
                                  deallocLog := s2.deallocLog ++ [pid] })
  else some (true, s)

/-- `BufferPoolManager::AllocatePage`: `next_page_id_++`. -/
def AllocatePage (s : BPMState) : Int × BPMState :=
  (s.next_page_id, { s with next_page_id := s.next_page_id + 1 })

/-- `FetchPageBasic` (buffer_pool_manager.cpp:267): a plain fetch wrapped in
a guard; access-type hints do not reach the replacer logic. -/
def FetchPageBasic (s : BPMState) (pid : Int) : Option (Option Nat × BPMState) :=
  FetchPage s pid

/-- `FetchPageRead` (buffer_pool_manager.cpp:269-271): fetch with the `Scan`
hint (ignored by `RecordAccess`), then `RLatch` (outside the model). -/
def FetchPageRead (s : BPMState) (pid : Int) : Option (Option Nat × BPMState) :=
  FetchPage s pid

/-- `FetchPageWrite` (buffer_pool_manager.cpp:273-275). -/
def FetchPageWrite (s : BPMState) (pid : Int) : Option (Option Nat × BPMState) :=
  FetchPage s pid

end BPM

/-! ## Buffer pool manager, copy 2 (`src/unnamed/part_001`) -/

namespace BPMAlt

/-- `BufferPoolManager::GetPage` (part_001:41-48), identical to copy 1. -/
def GetPage (s : BPMState) (pid : Int) : Option Nat :=
  s.pages.findIdx? (fun p => p.page_id = pid)

/-- `BufferPoolManager::GetPageId` (part_001:50-59): unlike copy 1, this
version *erases* the matching entry from `page_table_` before returning the
key. -/
def GetPageId (s : BPMState) (fid : Nat) : Int × BPMState :=
  match s.page_table.find? (fun e => e.2 = fid) with
  | some e => (e.1, { s with page_table := eraseI s.page_table e.1 })
  | none => (INVALID_PAGE_ID, s)

/-- `BufferPoolManager::GetFreePage` (part_001:61-68), identical to copy 1. -/
def GetFreePage (s : BPMState) : Option Nat :=
  s.pages.findIdx? (fun p => p.page_id = INVALID_PAGE_ID)

/-- `BufferPoolManager::WriteBackPage` (part_001:70-82), identical to copy 1
save for the absent thread. -/
def WriteBackPage (s : BPMState) (pid : Int) : Option (Nat × BPMState) :=
  match GetPage s pid with
  | none => none
  | some i =>
    match s.pages.get? i with
    | none => none
    | some pg => some (i, if pg.is_dirty then WritePageD s pid pg.data else s)

/-- `BufferPoolManager::AllocFrame` (part_001:84-122): as in copy 1 but the
frame is zeroed and `RecordAccess(frame_id)` is called inside, before
`SetEvictable(frame_id, false)`. -/
def AllocFrame (s : BPMState) (pid : Int) : Option (Option (Nat × Nat) × BPMState) :=
  if s.free_list.isEmpty then
    match LRUK.Evict s.repl with
    | none => none
    | some (none, r') => some (none, { s with repl := r' })
    | some (some fid, r') =>
      let s1 := { s with repl := r' }
      let or := GetPageId s1 fid
      if or.1 = INVALID_PAGE_ID then none
      else
        match WriteBackPage or.2 or.1 with
        | none => none
        | some (idx, s2) =>
          let s3 := { s2 with page_table := eraseI s2.page_table or.1 }
          match s3.pages.get? idx with
          | none => none
          | some pg =>
            let s4 := { s3 with
              pages := s3.pages.set idx
                { pg with page_id := pid, is_dirty := false, pin_count := 1, data := 0 } }
            match LRUK.RecordAccess s4.repl fid with
            | none => none
            | some r2 =>
              match LRUK.SetEvictable r2 fid false with
              | none => none
              | some r3 =>
                some (some (idx, fid),
                  { s4 with repl := r3, page_table := emplaceI s4.page_table pid fid })
  else
    match s.free_list with
    | [] => none
    | fid :: rest =>
      let s1 := { s with free_list := rest }
      match GetFreePage s1 with
      | none => none
      | some idx =>
        match s1.pages.get? idx with
        | none => none
        | some pg =>
          let s2 := { s1 with
            pages := s1.pages.set idx
              { pg with page_id := pid, is_dirty := false, pin_count := 1, data := 0 } }
          match LRUK.RecordAccess s2.repl fid with
          | none => none
          | some r2 =>
            match LRUK.SetEvictable r2 fid false with
            | none => none
            | some r3 =>
              some (some (idx, fid),
                { s2 with repl := r3, page_table := emplaceI s2.page_table pid fid })

/-- `BufferPoolManager::NewPage` (part_001:124-129): allocate an id and a
frame; nothing else. -/
def NewPage (s : BPMState) : Option (Option (Int × Nat) × BPMState) :=
  let pid := s.next_page_id
  let s0 := { s with next_page_id := s.next_page_id + 1 }
  match AllocFrame s0 pid with
  | none => none
  | some (none, s1) => some (none, s1)
  | some (some (idx, _fid), s1) => some (some (pid, idx), s1)

/-- `BufferPoolManager::FetchPage` (part_001:131-157): the hit path neither
increments the pin count nor calls `SetEvictable`; both paths end in
`RecordAccess(frame_id)` (on a miss this is the second record, after the one
inside `AllocFrame`). -/
def FetchPage (s : BPMState) (pid : Int) : Option (Option Nat × BPMState) :=
  if (lookupI s.page_table pid).isSome then
    match lookupI s.page_table pid with
    | none => none
    | some fid =>
      match GetPage s pid with
      | none => none
      | some idx =>
        match LRUK.RecordAccess s.repl fid with
        | none => none
        | some r' => some (some idx, { s with repl := r' })
  else
    match AllocFrame s pid with
    | none => none
    | some (none, s1) => some (none, s1)
    | some (some (idx, _fid), s1) =>
      match lookupI s1.page_table pid with
      | none => none
      | some fid =>
        match s1.pages.get? idx with
        | none => none
        | some pg =>
          let s2 := { s1 with pages := s1.pages.set idx { pg with data := ReadPageD s1 pid } }
          match LRUK.RecordAccess s2.repl fid with
          | none => none
          | some r' => some (some idx, { s2 with repl := r' })

/-- `BufferPoolManager::UnpinPage` (part_001:159-181); the body coincides
with copy 1 line for line (the dirty flag is overwritten). -/
def UnpinPage (s : BPMState) (pid : Int) (is_dirty : Bool) : Option (Bool × BPMState) :=
  if (lookupI s.page_table pid).isSome then
    match GetPage s pid with
    | none => none
    | some idx =>
      match lookupI s.page_table pid with
      | none => none
      | some fid =>
        match s.pages.get? idx with
        | none => none
        | some pg =>
          if pg.pin_count = 0 then some (false, s)
          else
            let s1 := { s with
              pages := s.pages.set idx { pg with pin_count := pg.pin_count - 1, is_dirty := is_dirty } }
            if pg.pin_count - 1 = 0 then
              match LRUK.SetEvictable s1.repl fid true with
              | none => none
              | some r' => some (true, { s1 with repl := r' })
            else some (true, s1)
  else some (false, s)

/-- `BufferPoolManager::FlushPage` (part_001:183-196): write the bytes
unconditionally; no dirty-flag reset, no replacer call. -/
def FlushPage (s : BPMState) (pid : Int) : Option (Bool × BPMState) :=
  match GetPage s pid with
  | none => some (false, s)
  | some idx =>
    match s.pages.get? idx with
    | none => none
    | some pg => some (true, WritePageD s pid pg.data)

/-- `BufferPoolManager::DeletePage` (part_001:212-244), identical to
copy 1: no replacer call. -/
def DeletePage (s : BPMState) (pid : Int) : Option (Bool × BPMState) :=
  if (lookupI s.page_table pid).isSome then
    match GetPage s pid with
    | none => none
    | some idx =>
      match s.pages.get? idx with
      | none => none
      | some pg =>
        if pg.pin_count ≠ 0 then some (false, s)
        else
          let s1 := if pg.is_dirty then WritePageD s pid pg.data else s
          let pgA := if pg.is_dirty then { pg with is_dirty := false } else pg
          let s2 := { s1 with
            pages := s1.pages.set idx { pgA with data := 0, page_id := INVALID_PAGE_ID } }
          match lookupI s2.page_table pid with
          | none => none
          | some fid =>
            some (true, { s2 with free_list := s2.free_list ++ [fid],
                                  page_table := eraseI s2.page_table pid,
                                  deallocLog := s2.deallocLog ++ [pid] })
  else some (true, s)

/-- `FetchPageBasic` (part_001:248). -/
def FetchPageBasic (s : BPMState) (pid : Int) : Option (Option Nat × BPMState) :=
  FetchPage s pid

/-- `FetchPageRead` (part_001:250-260): after a successful fetch the pin
count of the returned frame is incremented directly (`++(page->pin_count_)`)
with no replacer call, then the read latch is taken (outside the model). -/
def FetchPageRead (s : BPMState) (pid : Int) : Option (Option Nat × BPMState) :=
  match FetchPage s pid with
  | none => none
  | some (none, s1) => some (none, s1)
  | some (some idx, s1) =>
    match s1.pages.get? idx with
    | none => none
    | some pg =>
      some (some idx, { s1 with pages := s1.pages.set idx { pg with pin_count := pg.pin_count + 1 } })

/-- `FetchPageWrite` (part_001:262-270): same pin increment, write latch. -/
def FetchPageWrite (s : BPMState) (pid : Int) : Option (Option Nat × BPMState) :=
  match FetchPage s pid with
  | none => none
  | some (none, s1) => some (none, s1)
  | some (some idx, s1) =>
    match s1.pages.get? idx with
    | none => none
    | some pg =>
      some (some idx, { s1 with pages := s1.pages.set idx { pg with pin_count := pg.pin_count + 1 } })

end BPMAlt

/-! ## Concrete execution traces

Each `cNsK` is the state after the `K`-th operation of the trace used to
settle claim `N`; `snd?` extracts the post-state of an operation (the
default is never used: every step's success is asserted in the theorems). -/

def snd? {α : Type} (r : Option (α × BPMState)) (d : BPMState) : BPMState :=
  match r with
  | some p => p.2
  | none => d

/-- C1 trace: `pool_size = 1, k = 1`; `new_page` (id 0), `fetch_page 0`,
`unpin_page 0 true`, `unpin_page 0 false`, `new_page` (id 1, evicts 0). -/
def c1s0 : BPMState := initBPM 1 1

def c1s1 : BPMState := snd? (BPM.NewPage c1s0) c1s0

def c1s2 : BPMState := snd? (BPM.FetchPage c1s1 0) c1s1

def c1s3 : BPMState := snd? (BPM.UnpinPage c1s2 0 true) c1s2

def c1s4 : BPMState := snd? (BPM.UnpinPage c1s3 0 false) c1s3

def c1s5 : BPMState := snd? (BPM.NewPage c1s4) c1s4

/-- C2 trace (copy 2): `pool_size = 1, k = 2`; `new_page` (id 0),
`unpin_page 0 false`, `fetch_page_read 0`. -/
def c2s0 : BPMState := initBPM 1 2

def c2s1 : BPMState := snd? (BPMAlt.NewPage c2s0) c2s0

def c2s2 : BPMState := snd? (BPMAlt.UnpinPage c2s1 0 false) c2s1

def c2s3 : BPMState := snd? (BPMAlt.FetchPageRead c2s2 0) c2s2

/-- C4 trace: replacer with `num_frames = 2, k = 2`; accesses
`f0, f1, f1, f0` (timestamps 0,1,2,3), then both frames become evictable. -/
def c4s0 : RState := LRUK.initR 2 2

def c4s1 : RState := (LRUK.RecordAccess c4s0 0).getD c4s0

def c4s2 : RState := (LRUK.RecordAccess c4s1 1).getD c4s1

def c4s3 : RState := (LRUK.RecordAccess c4s2 1).getD c4s2

def c4s4 : RState := (LRUK.RecordAccess c4s3 0).getD c4s3

def c4s5 : RState := (LRUK.SetEvictable c4s4 0 true).getD c4s4

def c4s6 : RState := (LRUK.SetEvictable c4s5 1 true).getD c4s5

/-- C5 witness trace: replacer with `num_frames = 1, k = 2`; one access on
frame 0, then frame 0 becomes evictable (a warmup node). -/
def c5s0 : RState := LRUK.initR 1 2

def c5s1 : RState := (LRUK.RecordAccess c5s0 0).getD c5s0

def c5s2 : RState := (LRUK.SetEvictable c5s1 0 true).getD c5s1

def c5s3 : RState := ((LRUK.Evict c5s2).getD (none, c5s2)).2

/-- C6 trace: `pool_size = 1, k = 1`; `new_page` (id 0), `unpin_page 0 false`,
`delete_page 0`. -/
def c6s0 : BPMState := initBPM 1 1

def c6s1 : BPMState := snd? (BPM.NewPage c6s0) c6s0

def c6s2 : BPMState := snd? (BPM.UnpinPage c6s1 0 false) c6s1

def c6s3 : BPMState := snd? (BPM.DeletePage c6s2 0) c6s2

/-- C7 trace: `pool_size = 2, k = 2`; `new_page` twice (ids 0, 1 in frames
0, 1), unpin both, delete id 1 then id 0 (free list becomes `[1, 0]`), then
`new_page` (id 2): the frame id popped from the free list is 1 but the bytes
are placed in frame 0. -/
def c7s0 : BPMState := initBPM 2 2

def c7s1 : BPMState := snd? (BPM.NewPage c7s0) c7s0

def c7s2 : BPMState := snd? (BPM.NewPage c7s1) c7s1

def c7s3 : BPMState := snd? (BPM.UnpinPage c7s2 0 false) c7s2

def c7s4 : BPMState := snd? (BPM.UnpinPage c7s3 1 false) c7s3

def c7s5 : BPMState := snd? (BPM.DeletePage c7s4 1) c7s4

def c7s6 : BPMState := snd? (BPM.DeletePage c7s5 0) c7s5

def c7s7 : BPMState := snd? (BPM.NewPage c7s6) c7s6

/-- C8 trace: `pool_size = 1, k = 2`; `new_page` (id 0), `unpin_page 0 true`
(page now dirty and resident), `flush_page 0`. -/
def c8s0 : BPMState := initBPM 1 2

def c8s1 : BPMState := snd? (BPM.NewPage c8s0) c8s0

def c8s2 : BPMState := snd? (BPM.UnpinPage c8s1 0 true) c8s1

def c8s3 : BPMState := snd? (BPM.FlushPage c8s2 0) c8s2

/-- C9 trace: replacer with `num_frames = 1, k = 1`; one access on frame 0
(its history is full, `k_ = K`), then `set_evictable(0, true)` — which takes
the warm branch and never creates a `dict_` entry. -/
def c9s0 : RState := LRUK.initR 1 1

def c9s1 : RState := (LRUK.RecordAccess c9s0 0).getD c9s0

def c9s2 : RState := (LRUK.SetEvictable c9s1 0 true).getD c9s1

/-! ## Replacer invariant

`LRUK.Inv` collects the facts that hold in every replacer state reachable
through the public API without undefined behaviour; they are exactly what
the warmup-precedence claim needs: `lru_list_` contains precisely the
evictable nodes with fewer than `K` accesses, it is strictly ordered by
descending oldest timestamp (so its back is the least-recently-first-used
candidate), and `curr_size_` counts the listed nodes. -/

namespace LRUK

structure Inv (s : RState) : Prop where
  lruND : s.lru.Nodup
  klND : s.klist.Nodup
  disj : ∀ f, f ∈ s.lru → f ∉ s.klist
  lruMem : ∀ f, f ∈ s.lru → ∃ nd, node? s f = some nd ∧ nd.ev = true ∧ nd.k < s.K
  klMem : ∀ f, f ∈ s.klist → ∃ nd, node? s f = some nd ∧ nd.ev = true ∧ nd.k = s.K
  evCom : ∀ f nd, node? s f = some nd → nd.ev = true → f ∈ s.lru ∨ f ∈ s.klist
  currEq : s.curr = s.lru.length + s.klist.length
  kLE : ∀ f nd, node? s f = some nd → nd.k ≤ s.K
  tsB : ∀ f nd, node? s f = some nd → ∀ t, t ∈ nd.history → t < s.ts
  tsD : ∀ f g ndf ndg, f ≠ g → node? s f = some ndf → node? s g = some ndg →
        ∀ t, t ∈ ndf.history → t ∉ ndg.history
  lruSorted : s.lru.Pairwise (fun a b => oldestKey s b < oldestKey s a)
  lruNE2 : 2 ≤ s.lru.length → ∀ f, f ∈ s.lru → histOf s f ≠ []
  dictL : ∀ f, f ∈ s.lru → f ∈ s.dictP ∧ f ∈ s.dictV

end LRUK

/-! ## Claim theorems (evaluation claims) -/

/-- **C1** (code bug).  The claim says `unpin_page` OR-assigns the dirty
flag, so a later `unpin_page(p, false)` leaves a previously set flag and the
page is written back on eviction.  The code overwrites
(`page->is_dirty_ = is_dirty`): on the C1 trace, `unpin_page(0, true)` sets
the flag, the subsequent `unpin_page(0, false)` clears it, and the eviction
by the final `new_page` performs no disk write (`writeLog` stays empty) even
though page 0 left the pool. -/
theorem c1_sticky_dirty_violated :
    BPM.NewPage c1s0 = some (some (0, 0), c1s1) ∧
    BPM.FetchPage c1s1 0 = some (some 0, c1s2) ∧
    BPM.UnpinPage c1s2 0 true = some (true, c1s3) ∧
    (c1s3.pages.get? 0).map Page.is_dirty = some true ∧
    BPM.UnpinPage c1s3 0 false = some (true, c1s4) ∧
    (c1s4.pages.get? 0).map Page.is_dirty = some false ∧
    BPM.NewPage c1s4 = some (some (1, 0), c1s5) ∧
    lookupI c1s5.page_table 0 = none ∧
    c1s5.writeLog = [] := by decide

/-- **C2** (code bug).  In copy 2 (`part_001`), `FetchPage`'s hit path
neither pins nor calls `SetEvictable(frame, false)`, while `FetchPageRead`
increments `pin_count_` directly: after `new_page`, `unpin_page(0, false)`,
`fetch_page_read(0)`, frame 0 has `pin_count = 1` yet its replacer node is
still evictable, and `Evict` returns exactly that frame. -/
theorem c2_pinned_evictable_violated :
    BPMAlt.NewPage c2s0 = some (some (0, 0), c2s1) ∧
    BPMAlt.UnpinPage c2s1 0 false = some (true, c2s2) ∧
    BPMAlt.FetchPageRead c2s2 0 = some (some 0, c2s3) ∧
    (c2s3.pages.get? 0).map Page.pin_count = some 1 ∧
    (LRUK.node? c2s3.repl 0).map LNode.ev = some true ∧
    (LRUK.Evict c2s3.repl).map Prod.fst = some (some 0) := by decide

/-- **C3** (code bug).  `BasicPageGuard::Drop` executes `is_dirty_ = false`
*before* issuing `UnpinPage(page_id, is_dirty_)`, so a guard that recorded
the page dirty still unpins with `is_dirty = false`; the write guard drops
through the same basic guard. -/
theorem c3_guard_dirty_not_forwarded :
    (BasicPageGuard.Drop ⟨some 7, true⟩).1 = some (7, false) ∧
    (WritePageGuard.Drop ⟨⟨some 7, true⟩⟩).1 = some (7, false) := by decide

/-- **C4** (code bug).  With every evictable node warm
(`history.length = K = 2`), `Evict` pops the back of `k_list_`, which
`SetEvictable` ordered by descending `history_.front()` (the *newest*
timestamp) — not by `history_.back()` as the claim states.  On the C4 trace
node 0 has history `[3, 0]` and node 1 has `[2, 1]`: the smallest
`history.back()` is node 0's, yet `Evict` returns frame 1. -/
theorem c4_evict_not_kdistance :
    LRUK.RecordAccess c4s0 0 = some c4s1 ∧
    LRUK.RecordAccess c4s1 1 = some c4s2 ∧
    LRUK.RecordAccess c4s2 1 = some c4s3 ∧
    LRUK.RecordAccess c4s3 0 = some c4s4 ∧
    LRUK.SetEvictable c4s4 0 true = some c4s5 ∧
    LRUK.SetEvictable c4s5 1 true = some c4s6 ∧
    LRUK.node? c4s6 0 = some ⟨2, [3, 0], true⟩ ∧
    LRUK.node? c4s6 1 = some ⟨2, [2, 1], true⟩ ∧
    (LRUK.Evict c4s6).map Prod.fst = some (some 1) := by decide

/-- **C6** (code bug).  `DeletePage` on an unpinned resident page clears the
frame, frees it and erases the page table entry, but performs *no* replacer
call: after the C6 trace the freed frame 0 is on the free list while its
replacer node still holds its history, is still marked evictable, still
sits in the candidate list, and still counts in `curr_size_`. -/
theorem c6_delete_leaves_replacer :
    BPM.NewPage c6s0 = some (some (0, 0), c6s1) ∧
    BPM.UnpinPage c6s1 0 false = some (true, c6s2) ∧
    BPM.DeletePage c6s2 0 = some (true, c6s3) ∧
    c6s3.page_table = [] ∧
    c6s3.free_list = [0] ∧
    c6s3.deallocLog = [0] ∧
    LRUK.node? c6s3.repl 0 = some ⟨1, [0], true⟩ ∧
    c6s3.repl.klist = [0] ∧
    c6s3.repl.curr = 1 := by decide

/-- **C7** (code bug).  `AllocFrame` pops a frame *id* from the free list
but writes the new binding into the frame found by `GetFreePage` (the first
frame holding `INVALID_PAGE_ID`).  After deleting pages 1 and 0 in that
order the free list is `[1, 0]`; the next `new_page` (id 2) pops frame id 1
yet stores page 2 in frame 0, leaving `page_table = [(2, 1)]` while
`pages[1].page_id = INVALID_PAGE_ID` — the claimed invariant fails. -/
theorem c7_page_table_mismatch :
    BPM.NewPage c7s0 = some (some (0, 0), c7s1) ∧
    BPM.NewPage c7s1 = some (some (1, 1), c7s2) ∧
    BPM.UnpinPage c7s2 0 false = some (true, c7s3) ∧
    BPM.UnpinPage c7s3 1 false = some (true, c7s4) ∧
    BPM.DeletePage c7s4 1 = some (true, c7s5) ∧
    BPM.DeletePage c7s5 0 = some (true, c7s6) ∧
    c7s6.free_list = [1, 0] ∧
    BPM.NewPage c7s6 = some (some (2, 0), c7s7) ∧
    c7s7.page_table = [(2, 1)] ∧
    (c7s7.pages.get? 1).map Page.page_id = some INVALID_PAGE_ID ∧
    (c7s7.pages.get? 0).map Page.page_id = some 2 := by decide

/-- **C8** (code bug).  `FlushPage` on a resident page writes the bytes to
disk (regardless of the flag) and returns true, but never executes
`is_dirty_ = false`: after the C8 trace the page is flushed (`writeLog =
[0]`) and its dirty flag is still set. -/
theorem c8_flush_keeps_dirty :
    BPM.NewPage c8s0 = some (some (0, 0), c8s1) ∧
    BPM.UnpinPage c8s1 0 true = some (true, c8s2) ∧
    BPM.FlushPage c8s2 0 = some (true, c8s3) ∧
    c8s3.writeLog = [0] ∧
    (c8s2.pages.get? 0).map Page.is_dirty = some true ∧
    (c8s3.pages.get? 0).map Page.is_dirty = some true := by decide

/-- **C9** (code bug).  A node that becomes warm while pinned and is then
made evictable enters `k_list_` through `SetEvictable`'s warm branch, which
never registers it in `dict_`.  `Remove` on that existing, evictable node
then fails its own `BUSTUB_ASSERT(dict_.count(frame_id), ...)` instead of
clearing and unregistering the node as the claim describes. -/
theorem c9_remove_trips_assert :
    LRUK.RecordAccess c9s0 0 = some c9s1 ∧
    LRUK.SetEvictable c9s1 0 true = some c9s2 ∧
    LRUK.node? c9s2 0 = some ⟨1, [0], true⟩ ∧
    c9s2.dictP = [] ∧
    LRUK.Remove c9s2 0 = LRUK.RmRes.stuck := by decide

/-- **C10** (confirmed).  The two copies of `UnpinPage`
(buffer_pool_manager.cpp:168-197 and part_001:159-181) are extensionally
equal: for every pool state and every pair of arguments they return the same
boolean and produce identical pool and replacer states. -/
theorem c10_unpin_copies_equal :
    ∀ (s : BPMState) (pid : Int) (d : Bool),
      BPMAlt.UnpinPage s pid d = BPM.UnpinPage s pid d :=
  fun _ _ _ => rfl

/-! ## Supporting lemmas for the replacer invariant -/

namespace LRUK

theorem lookupN_setN_self (l : List (Nat × LNode)) (f : Nat) (nd : LNode) :
    lookupN (setN l f nd) f = some nd := by
  induction l with
  | nil => simp [setN, lookupN]
  | cons p t ih =>
    by_cases h : p.1 = f
    · simp [setN, h, lookupN]
    · simp [setN, h, lookupN, ih]

theorem lookupN_setN_ne (l : List (Nat × LNode)) (f g : Nat) (nd : LNode) (h : g ≠ f) :
    lookupN (setN l f nd) g = lookupN l g := by
  induction l with
  | nil => simp [setN, lookupN, Ne.symm h]
  | cons p t ih =>
    by_cases hp : p.1 = f
    · simp [setN, hp, lookupN, Ne.symm h, ih]
    · simp [setN, hp, lookupN, ih]

theorem mem_insertByKey {key : Nat → Nat} {a x : Nat} {l : List Nat} :
    x ∈ insertByKey key a l ↔ x = a ∨ x ∈ l := by
  induction l with
  | nil => simp [insertByKey]
  | cons b t ih =>
    by_cases h : key b ≤ key a
    · simp [insertByKey, h]
    · simp [insertByKey, h, ih]
      tauto

theorem perm_insertByKey (key : Nat → Nat) (a : Nat) (l : List Nat) :
    (insertByKey key a l).Perm (a :: l) := by
  induction l with
  | nil => simp [insertByKey]
  | cons b t ih =>
    by_cases h : key b ≤ key a
    · simp [insertByKey, h]
    · simp only [insertByKey, h, if_false]
      exact (List.Perm.cons b ih).trans (List.Perm.swap a b t)

theorem perm_sortByKey (key : Nat → Nat) (l : List Nat) : (sortByKey key l).Perm l := by
  induction l with
  | nil => simp [sortByKey]
  | cons a t ih => exact (perm_insertByKey key a (sortByKey key t)).trans (List.Perm.cons a ih)

theorem pairwise_insertByKey {key : Nat → Nat} {a : Nat} {l : List Nat}
    (h : l.Pairwise (fun x y => key y ≤ key x)) :
    (insertByKey key a l).Pairwise (fun x y => key y ≤ key x) := by
  induction l with
  | nil => simp [insertByKey]
  | cons b t ih =>
    rcases List.pairwise_cons.mp h with ⟨hb, ht⟩
    by_cases hc : key b ≤ key a
    · simp only [insertByKey, hc, if_true]
      refine List.pairwise_cons.mpr ⟨?_, h⟩
      intro x hx
      rcases List.mem_cons.mp hx with hx | hx
      · subst hx
        exact hc
      · exact le_trans (hb x hx) hc
    · simp only [insertByKey, hc, if_false]
      refine List.pairwise_cons.mpr ⟨?_, ih ht⟩
      intro x hx
      rcases mem_insertByKey.mp hx with hx | hx
      · subst hx
        exact le_of_lt (lt_of_not_ge hc)
      · exact hb x hx

theorem pairwise_sortByKey (key : Nat → Nat) (l : List Nat) :
    (sortByKey key l).Pairwise (fun x y => key y ≤ key x) := by
  induction l with
  | nil => simp [sortByKey]
  | cons a t ih => exact pairwise_insertByKey ih

theorem two_le_length_of_mem_ne {l : List Nat} {a b : Nat}
    (ha : a ∈ l) (hb : b ∈ l) (hab : a ≠ b) : 2 ≤ l.length := by
  cases l with
  | nil => cases ha
  | cons x t =>
    cases t with
    | nil =>
      simp only [List.mem_singleton] at ha hb
      exact absurd (ha.trans hb.symm) hab
    | cons y u => simp [Nat.succ_le_succ, Nat.le_add_left]

end LRUK

namespace LRUK

theorem ensureNode_of_some {s : RState} {f : Nat} {nd : LNode} (h : node? s f = some nd) :
    ensureNode s f = s := by
  simp [ensureNode, h]

@[simp] theorem ensureNode_numFrames (s : RState) (f : Nat) :
    (ensureNode s f).numFrames = s.numFrames := by
  unfold ensureNode; split <;> rfl

@[simp] theorem ensureNode_K (s : RState) (f : Nat) : (ensureNode s f).K = s.K := by
  unfold ensureNode; split <;> rfl

@[simp] theorem ensureNode_lru (s : RState) (f : Nat) : (ensureNode s f).lru = s.lru := by
  unfold ensureNode; split <;> rfl

@[simp] theorem ensureNode_klist (s : RState) (f : Nat) : (ensureNode s f).klist = s.klist := by
  unfold ensureNode; split <;> rfl

@[simp] theorem ensureNode_dictP (s : RState) (f : Nat) : (ensureNode s f).dictP = s.dictP := by
  unfold ensureNode; split <;> rfl

@[simp] theorem ensureNode_dictV (s : RState) (f : Nat) : (ensureNode s f).dictV = s.dictV := by
  unfold ensureNode; split <;> rfl

@[simp] theorem ensureNode_curr (s : RState) (f : Nat) : (ensureNode s f).curr = s.curr := by
  unfold ensureNode; split <;> rfl

@[simp] theorem ensureNode_ts (s : RState) (f : Nat) : (ensureNode s f).ts = s.ts := by
  unfold ensureNode; split <;> rfl

theorem node?_ensureNode_self (s : RState) (f : Nat) :
    node? (ensureNode s f) f = some ((node? s f).getD ⟨0, [], false⟩) := by
  cases h : node? s f with
  | some nd => rw [ensureNode_of_some h, h]; rfl
  | none =>
    have hl : node? (ensureNode s f) f = some ⟨0, [], false⟩ := by
      show lookupN (ensureNode s f).nodes f = _
      simp only [ensureNode, h]
      exact lookupN_setN_self _ _ _
    rw [hl]
    rfl

theorem node?_ensureNode_ne {s : RState} {f g : Nat} (h : g ≠ f) :
    node? (ensureNode s f) g = node? s g := by
  cases hf : node? s f with
  | some nd => rw [ensureNode_of_some hf]
  | none =>
    show lookupN (ensureNode s f).nodes g = _
    simp only [ensureNode, hf]
    exact lookupN_setN_ne _ _ _ _ h

theorem histOf_congr {s s' : RState} {g : Nat} (h : node? s' g = node? s g) :
    histOf s' g = histOf s g := by
  simp [histOf, h]

theorem oldestKey_congr {s s' : RState} {g : Nat} (h : node? s' g = node? s g) :
    oldestKey s' g = oldestKey s g := by
  simp [oldestKey, histOf, h]

theorem pairwise_key_congr {s s' : RState} {l : List Nat}
    (h : ∀ g, g ∈ l → oldestKey s' g = oldestKey s g)
    (hp : l.Pairwise (fun a b => oldestKey s b < oldestKey s a)) :
    l.Pairwise (fun a b => oldestKey s' b < oldestKey s' a) := by
  refine hp.imp_of_mem ?_
  intro a b ha hb hlt
  rw [h a ha, h b hb]
  exact hlt

theorem pairwise_strict_of_sorted {key : Nat → Nat} {l : List Nat}
    (hnd : l.Nodup) (hp : l.Pairwise (fun x y => key y ≤ key x))
    (hinj : ∀ a, a ∈ l → ∀ b, b ∈ l → a ≠ b → key a ≠ key b) :
    l.Pairwise (fun x y => key y < key x) := by
  refine (hp.and hnd).imp_of_mem ?_
  intro a b ha hb hab
  exact lt_of_le_of_ne hab.1 fun he =>
    hinj b hb a ha (Ne.symm hab.2) he

theorem getLast?_cons_of_ne_nil {a : Nat} {l : List Nat} (h : l ≠ []) :
    (a :: l).getLast? = l.getLast? := by
  cases l with
  | nil => exact absurd rfl h
  | cons b t => exact List.getLast?_cons_cons

theorem inv_initR (n k : Nat) : Inv (initR n k) := by
  constructor <;> simp [initR, node?, lookupN]

theorem inv_ensure {s : RState} (hi : Inv s) (f : Nat) : Inv (ensureNode s f) := by
  cases h : node? s f with
  | some nd => rw [ensureNode_of_some h]; exact hi
  | none =>
    have hself : node? (ensureNode s f) f = some ⟨0, [], false⟩ := by
      rw [node?_ensureNode_self, h]
      rfl
    have hother : ∀ g, g ≠ f → node? (ensureNode s f) g = node? s g :=
      fun g hg => node?_ensureNode_ne hg
    have hmemne : ∀ g, g ∈ s.lru ∨ g ∈ s.klist → g ≠ f := by
      intro g hg he
      subst he
      rcases hg with hg | hg
      · rcases hi.lruMem g hg with ⟨nd, hnd, _⟩
        rw [h] at hnd; cases hnd
      · rcases hi.klMem g hg with ⟨nd, hnd, _⟩
        rw [h] at hnd; cases hnd
    constructor
    · simpa using hi.lruND
    · simpa using hi.klND
    · simpa using hi.disj
    · intro g hg
      rcases hi.lruMem g (by simpa using hg) with ⟨nd, hnd, hev, hk⟩
      exact ⟨nd, by rw [hother g (hmemne g (Or.inl (by simpa using hg)))]; exact hnd,
             hev, by simpa using hk⟩
    · intro g hg
      rcases hi.klMem g (by simpa using hg) with ⟨nd, hnd, hev, hk⟩
      exact ⟨nd, by rw [hother g (hmemne g (Or.inr (by simpa using hg)))]; exact hnd,
             hev, by simpa using hk⟩
    · intro g nd hnd hev
      by_cases hg : g = f
      · subst hg
        rw [hself] at hnd
        cases hnd
        cases hev
      · rw [hother g hg] at hnd
        simpa using hi.evCom g nd hnd hev
    · simpa using hi.currEq
    · intro g nd hnd
      by_cases hg : g = f
      · subst hg
        rw [hself] at hnd
        cases hnd
        simp
      · rw [hother g hg] at hnd
        simpa using hi.kLE g nd hnd
    · intro g nd hnd t ht
      by_cases hg : g = f
      · subst hg
        rw [hself] at hnd
        cases hnd
        cases ht
      · rw [hother g hg] at hnd
        simpa using hi.tsB g nd hnd t ht
    · intro g g' nd nd' hne hnd hnd'
      by_cases hg : g = f
      · subst hg
        rw [hself] at hnd
        cases hnd
        intro t ht
        cases ht
      · by_cases hg' : g' = f
        · subst hg'
          rw [hself] at hnd'
          cases hnd'
          intro t ht hmem
          cases hmem
        · rw [hother g hg] at hnd
          rw [hother g' hg'] at hnd'
          exact hi.tsD g g' nd nd' hne hnd hnd'
    · simp only [ensureNode_lru]
      refine pairwise_key_congr ?_ hi.lruSorted
      intro g hg
      exact oldestKey_congr (hother g (hmemne g (Or.inl hg)))
    · intro h2 g hg
      simp only [ensureNode_lru] at h2 hg
      rw [histOf_congr (hother g (hmemne g (Or.inl hg)))]
      exact hi.lruNE2 h2 g hg
    · intro g hg
      simpa using hi.dictL g (by simpa using hg)

end LRUK

namespace LRUK

theorem node?_upd_self {s s' : RState} {f : Nat} {nd : LNode}
    (h : s'.nodes = setN s.nodes f nd) : node? s' f = some nd := by
  rw [node?, h]
  exact lookupN_setN_self _ _ _

theorem node?_upd_ne {s s' : RState} {f g : Nat} {nd : LNode}
    (h : s'.nodes = setN s.nodes f nd) (hg : g ≠ f) : node? s' g = node? s g := by
  rw [node?, h, node?]
  exact lookupN_setN_ne _ _ _ _ hg

theorem lru_decomp {s : RState} {f : Nat} (hl : s.lru.getLast? = some f) :
    s.lru.dropLast ++ [f] = s.lru := by
  have hne : s.lru ≠ [] := by
    intro he
    rw [he] at hl
    cases hl
  have hg : s.lru.getLast hne = f := by
    have := List.getLast?_eq_getLast s.lru hne
    rw [this] at hl
    exact Option.some.inj hl
  rw [← hg]
  exact List.dropLast_append_getLast hne

theorem not_mem_dropLast_of_nodup {l : List Nat} {f : Nat}
    (hd : l.dropLast ++ [f] = l) (hnd : l.Nodup) : f ∉ l.dropLast := by
  have h2 : (l.dropLast ++ [f]).Nodup := by rw [hd]; exact hnd
  have := (List.nodup_append.mp h2).2.2
  intro hf
  exact this hf (List.mem_singleton_self f)

theorem mem_dropLast_of_ne {l : List Nat} {f g : Nat}
    (hd : l.dropLast ++ [f] = l) (hg : g ∈ l) (hne : g ≠ f) : g ∈ l.dropLast := by
  rw [← hd] at hg
  rcases List.mem_append.mp hg with hg | hg
  · exact hg
  · exact absurd (List.mem_singleton.mp hg) hne


theorem inv_evict_pop_lru {s : RState} {f : Nat} {nd : LNode} (hi : Inv s)
    (hl : s.lru.getLast? = some f) (hnd : node? s f = some nd) :
    Inv { s with lru := s.lru.dropLast,
                 nodes := setN s.nodes f { nd with ev := false, history := [], k := 0 },
                 curr := s.curr - 1, dictV := s.dictV.erase f } := by
  set t : RState := { s with lru := s.lru.dropLast, nodes := setN s.nodes f { nd with ev := false, history := [], k := 0 }, curr := s.curr - 1, dictV := s.dictV.erase f } with ht
  have hdec := lru_decomp hl
  have hfl : f ∈ s.lru := by
    rw [← hdec]
    exact List.mem_append.mpr (Or.inr (List.mem_singleton_self f))
  have hnotdl := not_mem_dropLast_of_nodup hdec hi.lruND
  have hself : node? t f = some { nd with ev := false, history := [], k := 0 } :=
    node?_upd_self rfl
  have hother : ∀ g, g ≠ f → node? t g = node? s g := fun g hg => node?_upd_ne rfl hg
  have hlen : s.lru.length = s.lru.dropLast.length + 1 := by
    conv_lhs => rw [← hdec]
    simp
  constructor
  · exact hi.lruND.sublist (List.dropLast_sublist s.lru)
  · exact hi.klND
  · intro g hg
    exact hi.disj g ((List.dropLast_sublist s.lru).subset hg)
  · intro g hg
    have hgl := (List.dropLast_sublist s.lru).subset hg
    have hgne : g ≠ f := fun he => hnotdl (he ▸ hg)
    rcases hi.lruMem g hgl with ⟨ng, hng, hev, hk⟩
    exact ⟨ng, by rw [hother g hgne]; exact hng, hev, hk⟩
  · intro g hg
    have hgne : g ≠ f := by
      intro he
      exact hi.disj f hfl (he ▸ hg)
    rcases hi.klMem g hg with ⟨ng, hng, hev, hk⟩
    exact ⟨ng, by rw [hother g hgne]; exact hng, hev, hk⟩
  · intro g ng hng hev
    by_cases hgf : g = f
    · subst hgf
      rw [hself] at hng
      cases hng
      cases hev
    · rw [hother g hgf] at hng
      rcases hi.evCom g ng hng hev with hg | hg
      · exact Or.inl (mem_dropLast_of_ne hdec hg hgf)
      · exact Or.inr hg
  · have := hi.currEq
    show s.curr - 1 = s.lru.dropLast.length + s.klist.length
    omega
  · intro g ng hng
    by_cases hgf : g = f
    · subst hgf
      rw [hself] at hng
      cases hng
      exact Nat.zero_le _
    · rw [hother g hgf] at hng
      exact hi.kLE g ng hng
  · intro g ng hng t' ht'
    by_cases hgf : g = f
    · subst hgf
      rw [hself] at hng
      cases hng
      cases ht'
    · rw [hother g hgf] at hng
      exact hi.tsB g ng hng t' ht'
  · intro g g' ng ng' hne hng hng'
    by_cases hgf : g = f
    · subst hgf
      rw [hself] at hng
      cases hng
      intro t' ht'
      cases ht'
    · by_cases hgf' : g' = f
      · subst hgf'
        rw [hself] at hng'
        cases hng'
        intro t' ht' hmem
        cases hmem
      · rw [hother g hgf] at hng
        rw [hother g' hgf'] at hng'
        exact hi.tsD g g' ng ng' hne hng hng'
  · show (s.lru.dropLast).Pairwise (fun a b => oldestKey t b < oldestKey t a)
    refine pairwise_key_congr ?_ (hi.lruSorted.sublist (List.dropLast_sublist s.lru))
    intro g hg
    exact oldestKey_congr (hother g (fun he => hnotdl (he ▸ hg)))
  · intro h2 g hg
    have hgne : g ≠ f := fun he => hnotdl (he ▸ hg)
    rw [histOf_congr (hother g hgne)]
    have h2' : 2 ≤ s.lru.dropLast.length := h2
    exact hi.lruNE2 (by omega) g ((List.dropLast_sublist s.lru).subset hg)
  · intro g hg
    have hgne : g ≠ f := fun he => hnotdl (he ▸ hg)
    rcases hi.dictL g ((List.dropLast_sublist s.lru).subset hg) with ⟨hp, hv⟩
    exact ⟨hp, (List.mem_erase_of_ne hgne).mpr hv⟩

theorem inv_evict_pop_klist {s : RState} {f : Nat} {nd : LNode} (hi : Inv s)
    (hlru : s.lru = []) (hk : s.klist.getLast? = some f) (hnd : node? s f = some nd) :
    Inv { s with klist := s.klist.dropLast,
                 nodes := setN s.nodes f { nd with ev := false, history := [], k := 0 },
                 curr := s.curr - 1, dictV := s.dictV.erase f } := by
  set t : RState := { s with klist := s.klist.dropLast, nodes := setN s.nodes f { nd with ev := false, history := [], k := 0 }, curr := s.curr - 1, dictV := s.dictV.erase f } with ht
  have hdec : s.klist.dropLast ++ [f] = s.klist := by
    have hne : s.klist ≠ [] := by
      intro he
      rw [he] at hk
      cases hk
    have hg : s.klist.getLast hne = f := by
      have := List.getLast?_eq_getLast s.klist hne
      rw [this] at hk
      exact Option.some.inj hk
    rw [← hg]
    exact List.dropLast_append_getLast hne
  have hnotdl := not_mem_dropLast_of_nodup hdec hi.klND
  have hself : node? t f = some { nd with ev := false, history := [], k := 0 } :=
    node?_upd_self rfl
  have hother : ∀ g, g ≠ f → node? t g = node? s g := fun g hg => node?_upd_ne rfl hg
  have hlen : s.klist.length = s.klist.dropLast.length + 1 := by
    conv_lhs => rw [← hdec]
    simp
  constructor
  · exact hi.lruND
  · exact hi.klND.sublist (List.dropLast_sublist s.klist)
  · intro g hg hgk
    exact hi.disj g hg ((List.dropLast_sublist s.klist).subset hgk)
  · intro g hg
    show ∃ ng, node? t g = some ng ∧ ng.ev = true ∧ ng.k < s.K
    rw [hlru] at hg
    cases hg
  · intro g hg
    have hgk := (List.dropLast_sublist s.klist).subset hg
    have hgne : g ≠ f := fun he => hnotdl (he ▸ hg)
    rcases hi.klMem g hgk with ⟨ng, hng, hev, hk'⟩
    exact ⟨ng, by rw [hother g hgne]; exact hng, hev, hk'⟩
  · intro g ng hng hev
    by_cases hgf : g = f
    · subst hgf
      rw [hself] at hng
      cases hng
      cases hev
    · rw [hother g hgf] at hng
      rcases hi.evCom g ng hng hev with hg | hg
      · rw [hlru] at hg
        cases hg
      · exact Or.inr (mem_dropLast_of_ne hdec hg hgf)
  · have := hi.currEq
    show s.curr - 1 = s.lru.length + s.klist.dropLast.length
    omega
  · intro g ng hng
    by_cases hgf : g = f
    · subst hgf
      rw [hself] at hng
      cases hng
      exact Nat.zero_le _
    · rw [hother g hgf] at hng
      exact hi.kLE g ng hng
  · intro g ng hng t' ht'
    by_cases hgf : g = f
    · subst hgf
      rw [hself] at hng
      cases hng
      cases ht'
    · rw [hother g hgf] at hng
      exact hi.tsB g ng hng t' ht'
  · intro g g' ng ng' hne hng hng'
    by_cases hgf : g = f
    · subst hgf
      rw [hself] at hng
      cases hng
      intro t' ht'
      cases ht'
    · by_cases hgf' : g' = f
      · subst hgf'
        rw [hself] at hng'
        cases hng'
        intro t' ht' hmem
        cases hmem
      · rw [hother g hgf] at hng
        rw [hother g' hgf'] at hng'
        exact hi.tsD g g' ng ng' hne hng hng'
  · show s.lru.Pairwise (fun a b => oldestKey t b < oldestKey t a)
    rw [hlru]
    exact List.Pairwise.nil
  · intro h2 g hg
    show histOf t g ≠ []
    rw [hlru] at hg
    cases hg
  · intro g hg
    show g ∈ s.dictP ∧ g ∈ s.dictV.erase f
    rw [hlru] at hg
    cases hg

theorem inv_evt {s : RState} {r : Option Nat} {s' : RState} (hi : Inv s)
    (h : Evict s = some (r, s')) : Inv s' := by
  rw [Evict] at h
  by_cases hc : s.curr = 0
  · rw [if_pos hc] at h
    injection h with h
    injection h with h1 h2
    subst h2
    exact hi
  · rw [if_neg hc] at h
    cases hl : s.lru.getLast? with
    | some f =>
      cases hnd : node? s f with
      | none =>
        simp only [hl, hnd] at h
        exact Option.noConfusion h
      | some nd =>
        simp only [hl, hnd] at h
        injection h with h
        injection h with h1 h2
        exact h2 ▸ inv_evict_pop_lru hi hl hnd
    | none =>
      cases hk : s.klist.getLast? with
      | none =>
        simp only [hl, hk] at h
        exact Option.noConfusion h
      | some f =>
        cases hnd : node? s f with
        | none =>
          simp only [hl, hk, hnd] at h
          exact Option.noConfusion h
        | some nd =>
          simp only [hl, hk, hnd] at h
          injection h with h
          injection h with h1 h2
          have hlru : s.lru = [] := by
            cases he : s.lru with
            | nil => rfl
            | cons a tl =>
              rw [he] at hl
              simp [List.getLast?] at hl
          exact h2 ▸ inv_evict_pop_klist hi hlru hk hnd
end LRUK

namespace LRUK

theorem inv_remove_klist {s : RState} {f : Nat} {nd : LNode} (hi : Inv s)
    (hnd : node? s f = some nd) (hev : nd.ev = true) (hk : nd.k = s.K) (hm : f ∈ s.klist) :
    Inv { s with klist := s.klist.erase f, dictP := s.dictP.erase f, dictV := s.dictV.erase f, curr := s.curr - 1, nodes := setN s.nodes f ⟨0, [], false⟩ } := by
  set t : RState := { s with klist := s.klist.erase f, dictP := s.dictP.erase f, dictV := s.dictV.erase f, curr := s.curr - 1, nodes := setN s.nodes f ⟨0, [], false⟩ } with ht
  have hflru : f ∉ s.lru := fun hf => hi.disj f hf hm
  have hself : node? t f = some ⟨0, [], false⟩ := node?_upd_self rfl
  have hother : ∀ g, g ≠ f → node? t g = node? s g := fun g hg => node?_upd_ne rfl hg
  have hmemerase : ∀ g, g ∈ s.klist.erase f → g ≠ f ∧ g ∈ s.klist := by
    intro g hg
    have hgk := List.mem_of_mem_erase hg
    refine ⟨?_, hgk⟩
    intro he
    subst he
    exact (List.Nodup.not_mem_erase hi.klND) hg
  constructor
  · exact hi.lruND
  · exact hi.klND.erase f
  · intro g hg hgk
    exact hi.disj g hg (List.mem_of_mem_erase hgk)
  · intro g hg
    have hgne : g ≠ f := fun he => hflru (he ▸ hg)
    rcases hi.lruMem g hg with ⟨ng, hng, hevg, hkg⟩
    exact ⟨ng, by rw [hother g hgne]; exact hng, hevg, hkg⟩
  · intro g hg
    rcases hmemerase g hg with ⟨hgne, hgk⟩
    rcases hi.klMem g hgk with ⟨ng, hng, hevg, hkg⟩
    exact ⟨ng, by rw [hother g hgne]; exact hng, hevg, hkg⟩
  · intro g ng hng hevg
    by_cases hgf : g = f
    · subst hgf
      rw [hself] at hng
      cases hng
      cases hevg
    · rw [hother g hgf] at hng
      rcases hi.evCom g ng hng hevg with hg | hg
      · exact Or.inl hg
      · exact Or.inr ((List.mem_erase_of_ne hgf).mpr hg)
  · have h1 := hi.currEq
    have h2 := List.length_erase_of_mem hm
    have h3 : 1 ≤ s.klist.length := List.length_pos.mpr (List.ne_nil_of_mem hm)
    show s.curr - 1 = s.lru.length + (s.klist.erase f).length
    omega
  · intro g ng hng
    by_cases hgf : g = f
    · subst hgf
      rw [hself] at hng
      cases hng
      exact Nat.zero_le _
    · rw [hother g hgf] at hng
      exact hi.kLE g ng hng
  · intro g ng hng t' ht'
    by_cases hgf : g = f
    · subst hgf
      rw [hself] at hng
      cases hng
      cases ht'
    · rw [hother g hgf] at hng
      exact hi.tsB g ng hng t' ht'
  · intro g g' ng ng' hne hng hng'
    by_cases hgf : g = f
    · subst hgf
      rw [hself] at hng
      cases hng
      intro t' ht'
      cases ht'
    · by_cases hgf' : g' = f
      · subst hgf'
        rw [hself] at hng'
        cases hng'
        intro t' ht' hmem
        cases hmem
      · rw [hother g hgf] at hng
        rw [hother g' hgf'] at hng'
        exact hi.tsD g g' ng ng' hne hng hng'
  · show s.lru.Pairwise (fun a b => oldestKey t b < oldestKey t a)
    refine pairwise_key_congr ?_ hi.lruSorted
    intro g hg
    exact oldestKey_congr (hother g (fun he => hflru (he ▸ hg)))
  · intro h2 g hg
    rw [histOf_congr (hother g (fun he => hflru (he ▸ hg)))]
    exact hi.lruNE2 h2 g hg
  · intro g hg
    have hgne : g ≠ f := fun he => hflru (he ▸ hg)
    rcases hi.dictL g hg with ⟨hp, hv⟩
    exact ⟨(List.mem_erase_of_ne hgne).mpr hp, (List.mem_erase_of_ne hgne).mpr hv⟩

theorem inv_remove_lru {s : RState} {f : Nat} {nd : LNode} (hi : Inv s)
    (hnd : node? s f = some nd) (hev : nd.ev = true) (hm : f ∈ s.lru) :
    Inv { s with lru := s.lru.erase f, dictP := s.dictP.erase f, dictV := s.dictV.erase f, curr := s.curr - 1, nodes := setN s.nodes f ⟨0, [], false⟩ } := by
  set t : RState := { s with lru := s.lru.erase f, dictP := s.dictP.erase f, dictV := s.dictV.erase f, curr := s.curr - 1, nodes := setN s.nodes f ⟨0, [], false⟩ } with ht
  have hself : node? t f = some ⟨0, [], false⟩ := node?_upd_self rfl
  have hother : ∀ g, g ≠ f → node? t g = node? s g := fun g hg => node?_upd_ne rfl hg
  have hmemerase : ∀ g, g ∈ s.lru.erase f → g ≠ f ∧ g ∈ s.lru := by
    intro g hg
    have hgk := List.mem_of_mem_erase hg
    refine ⟨?_, hgk⟩
    intro he
    subst he
    exact (List.Nodup.not_mem_erase hi.lruND) hg
  constructor
  · exact hi.lruND.erase f
  · exact hi.klND
  · intro g hg hgk
    exact hi.disj g (List.mem_of_mem_erase hg) hgk
  · intro g hg
    rcases hmemerase g hg with ⟨hgne, hgl⟩
    rcases hi.lruMem g hgl with ⟨ng, hng, hevg, hkg⟩
    exact ⟨ng, by rw [hother g hgne]; exact hng, hevg, hkg⟩
  · intro g hg
    have hgne : g ≠ f := by
      intro he
      exact hi.disj f hm (he ▸ hg)
    rcases hi.klMem g hg with ⟨ng, hng, hevg, hkg⟩
    exact ⟨ng, by rw [hother g hgne]; exact hng, hevg, hkg⟩
  · intro g ng hng hevg
    by_cases hgf : g = f
    · subst hgf
      rw [hself] at hng
      cases hng
      cases hevg
    · rw [hother g hgf] at hng
      rcases hi.evCom g ng hng hevg with hg | hg
      · exact Or.inl ((List.mem_erase_of_ne hgf).mpr hg)
      · exact Or.inr hg
  · have h1 := hi.currEq
    have h2 := List.length_erase_of_mem hm
    have h3 : 1 ≤ s.lru.length := List.length_pos.mpr (List.ne_nil_of_mem hm)
    show s.curr - 1 = (s.lru.erase f).length + s.klist.length
    omega
  · intro g ng hng
    by_cases hgf : g = f
    · subst hgf
      rw [hself] at hng
      cases hng
      exact Nat.zero_le _
    · rw [hother g hgf] at hng
      exact hi.kLE g ng hng
  · intro g ng hng t' ht'
    by_cases hgf : g = f
    · subst hgf
      rw [hself] at hng
      cases hng
      cases ht'
    · rw [hother g hgf] at hng
      exact hi.tsB g ng hng t' ht'
  · intro g g' ng ng' hne hng hng'
    by_cases hgf : g = f
    · subst hgf
      rw [hself] at hng
      cases hng
      intro t' ht'
      cases ht'
    · by_cases hgf' : g' = f
      · subst hgf'
        rw [hself] at hng'
        cases hng'
        intro t' ht' hmem
        cases hmem
      · rw [hother g hgf] at hng
        rw [hother g' hgf'] at hng'
        exact hi.tsD g g' ng ng' hne hng hng'
  · show (s.lru.erase f).Pairwise (fun a b => oldestKey t b < oldestKey t a)
    refine pairwise_key_congr ?_ (hi.lruSorted.sublist (s.lru.erase_sublist f))
    intro g hg
    exact oldestKey_congr (hother g (hmemerase g hg).1)
  · intro h2 g hg
    rcases hmemerase g hg with ⟨hgne, hgl⟩
    rw [histOf_congr (hother g hgne)]
    have h2' : 2 ≤ (s.lru.erase f).length := h2
    have hle := (s.lru.erase_sublist f).length_le
    exact hi.lruNE2 (by omega) g hgl
  · intro g hg
    rcases hmemerase g hg with ⟨hgne, hgl⟩
    rcases hi.dictL g hgl with ⟨hp, hv⟩
    exact ⟨(List.mem_erase_of_ne hgne).mpr hp, (List.mem_erase_of_ne hgne).mpr hv⟩

theorem inv_rm {s s' : RState} {f : Nat} (hi : Inv s) (h : Remove s f = RmRes.ok s') :
    Inv s' := by
  rw [Remove] at h
  by_cases hf : f < s.numFrames
  · rw [if_pos hf] at h
    cases hnd : node? s f with
    | none =>
      simp only [hnd] at h
      injection h with h
      subst h
      exact hi
    | some nd =>
      simp only [hnd] at h
      by_cases hev : nd.ev = true
      · rw [if_pos hev] at h
        by_cases hd : f ∈ s.dictP ∧ f ∈ s.dictV
        · rw [if_pos hd] at h
          by_cases hk : nd.k = s.K
          · rw [if_pos hk] at h
            by_cases hm : f ∈ s.klist
            · rw [if_pos hm] at h
              injection h with h
              exact h ▸ inv_remove_klist hi hnd hev hk hm
            · rw [if_neg hm] at h
              exact RmRes.noConfusion h
          · rw [if_neg hk] at h
            by_cases hm : f ∈ s.lru
            · rw [if_pos hm] at h
              injection h with h
              exact h ▸ inv_remove_lru hi hnd hev hm
            · rw [if_neg hm] at h
              exact RmRes.noConfusion h
        · rw [if_neg hd] at h
          exact RmRes.noConfusion h
      · rw [if_neg hev] at h
        exact RmRes.noConfusion h
  · rw [if_neg hf] at h
    exact RmRes.noConfusion h

end LRUK

namespace LRUK

theorem sortGuard_eq_some {s : RState} {key : Nat → Nat} {l kl : List Nat}
    (h : sortGuard s key l = some kl) :
    kl = sortByKey key l ∧ (2 ≤ l.length → ∀ g, g ∈ l → histOf s g ≠ []) := by
  rw [sortGuard] at h
  by_cases hc : 2 ≤ l.length ∧ l.any (fun f => (histOf s f).isEmpty) = true
  · rw [if_pos hc] at h
    exact Option.noConfusion h
  · rw [if_neg hc] at h
    injection h with h
    refine ⟨h.symm, ?_⟩
    intro hlen g hg he
    refine hc ⟨hlen, ?_⟩
    refine List.any_eq_true.mpr ⟨g, hg, ?_⟩
    rw [he]
    rfl

theorem getLast?_some_mem {l : List Nat} (h : l ≠ []) :
    ∃ a, l.getLast? = some a ∧ a ∈ l :=
  ⟨l.getLast h, List.getLast?_eq_getLast l h, List.getLast_mem h⟩

theorem pairwise_of_subsingleton {R : Nat → Nat → Prop} {l : List Nat}
    (h : l.length ≤ 1) : l.Pairwise R := by
  cases l with
  | nil => exact List.Pairwise.nil
  | cons a t =>
    cases t with
    | nil => simp
    | cons b u => simp at h

end LRUK

namespace LRUK

theorem inv_se_insert_klist {s : RState} {f : Nat} {nd : LNode} {kl : List Nat}
    (hi : Inv s) (hnd : node? (ensureNode s f) f = some nd)
    (hev : nd.ev = false) (hkK : nd.k = s.K)
    (hsort : sortGuard (ensureNode s f) (newestKey (ensureNode s f)) (f :: s.klist) = some kl) :
    Inv { ensureNode s f with
          nodes := setN (ensureNode s f).nodes f { nd with ev := true },
          klist := kl, curr := s.curr + 1 } := by
  have hi1 := inv_ensure hi f
  set u := ensureNode s f with hu
  set t : RState := { u with nodes := setN u.nodes f { nd with ev := true }, klist := kl, curr := s.curr + 1 } with htt
  have hukl : u.klist = s.klist := ensureNode_klist s f
  have hulru : u.lru = s.lru := ensureNode_lru s f
  have huK : u.K = s.K := ensureNode_K s f
  have hucurr : u.curr = s.curr := ensureNode_curr s f
  have hself : node? t f = some { nd with ev := true } := node?_upd_self rfl
  have hother : ∀ g, g ≠ f → node? t g = node? u g := fun g hg => node?_upd_ne rfl hg
  have hsort' := sortGuard_eq_some hsort
  have hperm : kl.Perm (f :: s.klist) := by
    rw [hsort'.1]
    exact perm_sortByKey _ _
  have hmemkl : ∀ x, x ∈ kl ↔ x = f ∨ x ∈ s.klist := by
    intro x
    rw [hperm.mem_iff]
    simp
  have hfk : f ∉ s.klist := by
    intro hm
    rcases hi1.klMem f (by rw [hukl]; exact hm) with ⟨nd', hnd', hev', _⟩
    rw [hnd] at hnd'
    cases hnd'
    rw [hev] at hev'
    cases hev'
  have hflru : f ∉ s.lru := by
    intro hm
    rcases hi1.lruMem f (by rw [hulru]; exact hm) with ⟨nd', hnd', hev', _⟩
    rw [hnd] at hnd'
    cases hnd'
    rw [hev] at hev'
    cases hev'
  have hkeys : ∀ g, oldestKey t g = oldestKey u g := by
    intro g
    by_cases hg : g = f
    · subst hg
      simp [oldestKey, histOf, hself, hnd]
    · exact oldestKey_congr (hother g hg)
  have hhist : ∀ g, histOf t g = histOf u g := by
    intro g
    by_cases hg : g = f
    · subst hg
      simp [histOf, hself, hnd]
    · exact histOf_congr (hother g hg)
  constructor
  · exact hi1.lruND
  · show kl.Nodup
    rw [hperm.nodup_iff]
    exact List.nodup_cons.mpr ⟨hfk, by rw [← hukl]; exact hi1.klND⟩
  · intro g hg hgk
    rcases (hmemkl g).mp hgk with he | hgk'
    · subst he
      exact hflru (by rw [← hulru]; exact hg)
    · exact hi1.disj g hg (by rw [hukl]; exact hgk')
  · intro g hg
    have hgne : g ≠ f := by
      intro he
      subst he
      exact hflru (by rw [← hulru]; exact hg)
    rcases hi1.lruMem g hg with ⟨ng, hng, hevg, hkg⟩
    exact ⟨ng, by rw [hother g hgne]; exact hng, hevg, hkg⟩
  · intro g hgk
    rcases (hmemkl g).mp hgk with he | hgk'
    · subst he
      refine ⟨{ nd with ev := true }, hself, rfl, ?_⟩
      show nd.k = u.K
      rw [huK]
      exact hkK
    · have hgne : g ≠ f := by
        intro he
        subst he
        exact hfk hgk'
      rcases hi1.klMem g (by rw [hukl]; exact hgk') with ⟨ng, hng, hevg, hkg⟩
      exact ⟨ng, by rw [hother g hgne]; exact hng, hevg, hkg⟩
  · intro g ng hng hevg
    by_cases hgf : g = f
    · rw [hgf]
      exact Or.inr ((hmemkl f).mpr (Or.inl rfl))
    · rw [hother g hgf] at hng
      rcases hi1.evCom g ng hng hevg with hg | hg
      · exact Or.inl hg
      · exact Or.inr ((hmemkl g).mpr (Or.inr (by rw [← hukl]; exact hg)))
  · show s.curr + 1 = u.lru.length + kl.length
    have hlen := hperm.length_eq
    simp only [List.length_cons] at hlen
    have hc : u.curr = u.lru.length + u.klist.length := hi1.currEq
    rw [hucurr, hukl, hulru] at hc
    rw [hulru]
    omega
  · intro g ng hng
    by_cases hgf : g = f
    · rw [hgf, hself] at hng
      cases hng
      exact hi1.kLE f nd hnd
    · rw [hother g hgf] at hng
      exact hi1.kLE g ng hng
  · intro g ng hng t' ht'
    by_cases hgf : g = f
    · rw [hgf, hself] at hng
      cases hng
      exact hi1.tsB f nd hnd t' ht'
    · rw [hother g hgf] at hng
      exact hi1.tsB g ng hng t' ht'
  · intro g g' ng ng' hne hng hng'
    by_cases hgf : g = f
    · rw [hgf, hself] at hng
      cases hng
      intro t' ht'
      by_cases hgf' : g' = f
      · exact absurd (hgf.trans hgf'.symm) hne
      · rw [hother g' hgf'] at hng'
        rw [hgf] at hne
        exact hi1.tsD f g' nd ng' hne hnd hng' t' ht'
    · by_cases hgf' : g' = f
      · rw [hgf', hself] at hng'
        cases hng'
        rw [hother g hgf] at hng
        intro t' ht'
        rw [hgf'] at hne
        exact hi1.tsD g f ng nd hne hng hnd t' ht'
      · rw [hother g hgf] at hng
        rw [hother g' hgf'] at hng'
        exact hi1.tsD g g' ng ng' hne hng hng'
  · show u.lru.Pairwise (fun a b => oldestKey t b < oldestKey t a)
    exact pairwise_key_congr (fun g _ => hkeys g) hi1.lruSorted
  · intro h2 g hg
    rw [hhist g]
    exact hi1.lruNE2 h2 g hg
  · intro g hg
    exact hi1.dictL g hg

end LRUK

namespace LRUK

theorem inv_se_insert_lru {s : RState} {f : Nat} {nd : LNode} {ll : List Nat}
    (hi : Inv s) (hnd : node? (ensureNode s f) f = some nd)
    (hev : nd.ev = false) (hkK : ¬nd.k = s.K)
    (hsort : sortGuard (ensureNode s f) (oldestKey (ensureNode s f)) (f :: s.lru) = some ll) :
    Inv { ensureNode s f with
          nodes := setN (ensureNode s f).nodes f { nd with ev := true },
          lru := ll, dictP := f :: s.dictP, dictV := f :: s.dictV,
          curr := s.curr + 1 } := by
  have hi1 := inv_ensure hi f
  set u := ensureNode s f with hu
  set t : RState := { u with nodes := setN u.nodes f { nd with ev := true }, lru := ll, dictP := f :: s.dictP, dictV := f :: s.dictV, curr := s.curr + 1 } with htt
  have hukl : u.klist = s.klist := ensureNode_klist s f
  have hulru : u.lru = s.lru := ensureNode_lru s f
  have huK : u.K = s.K := ensureNode_K s f
  have hucurr : u.curr = s.curr := ensureNode_curr s f
  have hudP : u.dictP = s.dictP := ensureNode_dictP s f
  have hudV : u.dictV = s.dictV := ensureNode_dictV s f
  have hself : node? t f = some { nd with ev := true } := node?_upd_self rfl
  have hother : ∀ g, g ≠ f → node? t g = node? u g := fun g hg => node?_upd_ne rfl hg
  have hsort' := sortGuard_eq_some hsort
  have hperm : ll.Perm (f :: s.lru) := by
    rw [hsort'.1]
    exact perm_sortByKey _ _
  have hmemll : ∀ x, x ∈ ll ↔ x = f ∨ x ∈ s.lru := by
    intro x
    rw [hperm.mem_iff]
    simp
  have hfk : f ∉ s.klist := by
    intro hm
    rcases hi1.klMem f (by rw [hukl]; exact hm) with ⟨nd', hnd', hev', _⟩
    rw [hnd] at hnd'
    cases hnd'
    rw [hev] at hev'
    cases hev'
  have hflru : f ∉ s.lru := by
    intro hm
    rcases hi1.lruMem f (by rw [hulru]; exact hm) with ⟨nd', hnd', hev', _⟩
    rw [hnd] at hnd'
    cases hnd'
    rw [hev] at hev'
    cases hev'
  have hkcons : (f :: s.lru).Nodup :=
    List.nodup_cons.mpr ⟨hflru, by rw [← hulru]; exact hi1.lruND⟩
  have hkeys : ∀ g, oldestKey t g = oldestKey u g := by
    intro g
    by_cases hg : g = f
    · subst hg
      simp [oldestKey, histOf, hself, hnd]
    · exact oldestKey_congr (hother g hg)
  have hhist : ∀ g, histOf t g = histOf u g := by
    intro g
    by_cases hg : g = f
    · subst hg
      simp [histOf, hself, hnd]
    · exact histOf_congr (hother g hg)
  have hnodes : ∀ a, a ∈ f :: s.lru → ∃ na, node? u a = some na := by
    intro a ha
    rcases List.mem_cons.mp ha with ha | ha
    · exact ⟨nd, ha ▸ hnd⟩
    · rcases hi1.lruMem a (by rw [hulru]; exact ha) with ⟨na, hna, _, _⟩
      exact ⟨na, hna⟩
  constructor
  · show ll.Nodup
    rw [hperm.nodup_iff]
    exact hkcons
  · exact hi1.klND
  · intro g hg hgk
    rcases (hmemll g).mp hg with he | hg'
    · subst he
      exact hfk (by rw [← hukl]; exact hgk)
    · exact hi1.disj g (by rw [hulru]; exact hg') hgk
  · intro g hg
    rcases (hmemll g).mp hg with he | hg'
    · subst he
      refine ⟨{ nd with ev := true }, hself, rfl, ?_⟩
      show nd.k < u.K
      have := hi1.kLE g nd hnd
      rw [huK] at this ⊢
      omega
    · have hgne : g ≠ f := by
        intro he
        subst he
        exact hflru hg'
      rcases hi1.lruMem g (by rw [hulru]; exact hg') with ⟨ng, hng, hevg, hkg⟩
      exact ⟨ng, by rw [hother g hgne]; exact hng, hevg, hkg⟩
  · intro g hgk
    have hgne : g ≠ f := by
      intro he
      subst he
      exact hfk (by rw [← hukl]; exact hgk)
    rcases hi1.klMem g hgk with ⟨ng, hng, hevg, hkg⟩
    exact ⟨ng, by rw [hother g hgne]; exact hng, hevg, hkg⟩
  · intro g ng hng hevg
    by_cases hgf : g = f
    · rw [hgf]
      exact Or.inl ((hmemll f).mpr (Or.inl rfl))
    · rw [hother g hgf] at hng
      rcases hi1.evCom g ng hng hevg with hg | hg
      · exact Or.inl ((hmemll g).mpr (Or.inr (by rw [← hulru]; exact hg)))
      · exact Or.inr hg
  · show s.curr + 1 = ll.length + u.klist.length
    have hlen := hperm.length_eq
    simp only [List.length_cons] at hlen
    have hc : u.curr = u.lru.length + u.klist.length := hi1.currEq
    rw [hucurr, hukl, hulru] at hc
    rw [hukl]
    omega
  · intro g ng hng
    by_cases hgf : g = f
    · rw [hgf, hself] at hng
      cases hng
      exact hi1.kLE f nd hnd
    · rw [hother g hgf] at hng
      exact hi1.kLE g ng hng
  · intro g ng hng t' ht'
    by_cases hgf : g = f
    · rw [hgf, hself] at hng
      cases hng
      exact hi1.tsB f nd hnd t' ht'
    · rw [hother g hgf] at hng
      exact hi1.tsB g ng hng t' ht'
  · intro g g' ng ng' hne hng hng'
    by_cases hgf : g = f
    · rw [hgf, hself] at hng
      cases hng
      intro t' ht'
      by_cases hgf' : g' = f
      · exact absurd (hgf.trans hgf'.symm) hne
      · rw [hother g' hgf'] at hng'
        rw [hgf] at hne
        exact hi1.tsD f g' nd ng' hne hnd hng' t' ht'
    · by_cases hgf' : g' = f
      · rw [hgf', hself] at hng'
        cases hng'
        rw [hother g hgf] at hng
        intro t' ht'
        rw [hgf'] at hne
        exact hi1.tsD g f ng nd hne hng hnd t' ht'
      · rw [hother g hgf] at hng
        rw [hother g' hgf'] at hng'
        exact hi1.tsD g g' ng ng' hne hng hng'
  · show ll.Pairwise (fun a b => oldestKey t b < oldestKey t a)
    refine pairwise_key_congr (fun g _ => hkeys g) ?_
    by_cases hlen2 : 2 ≤ (f :: s.lru).length
    · have hne := hsort'.2 hlen2
      have hnodup : ll.Nodup := hperm.nodup_iff.mpr hkcons
      have hle : ll.Pairwise (fun x y => oldestKey u y ≤ oldestKey u x) := by
        rw [hsort'.1]
        exact pairwise_sortByKey _ _
      refine pairwise_strict_of_sorted hnodup hle ?_
      intro a ha b hb hab he
      have ha' := (hmemll a).mp ha
      have hb' := (hmemll b).mp hb
      have hma : a ∈ f :: s.lru := by
        rcases ha' with h | h
        · exact h ▸ List.mem_cons_self f s.lru
        · exact List.mem_cons.mpr (Or.inr h)
      have hmb : b ∈ f :: s.lru := by
        rcases hb' with h | h
        · exact h ▸ List.mem_cons_self f s.lru
        · exact List.mem_cons.mpr (Or.inr h)
      rcases hnodes a hma with ⟨na, hna⟩
      rcases hnodes b hmb with ⟨nb, hnb⟩
      have hha : histOf u a = na.history := by simp [histOf, hna]
      have hhb : histOf u b = nb.history := by simp [histOf, hnb]
      rcases getLast?_some_mem (hne a hma) with ⟨ta, hta, htam⟩
      rcases getLast?_some_mem (hne b hmb) with ⟨tb, htb, htbm⟩
      have hka : oldestKey u a = ta := by rw [oldestKey, hta]; rfl
      have hkb : oldestKey u b = tb := by rw [oldestKey, htb]; rfl
      rw [hka, hkb] at he
      subst he
      rw [hha] at htam
      rw [hhb] at htbm
      exact hi1.tsD a b na nb hab hna hnb ta htam htbm
    · exact pairwise_of_subsingleton (by rw [hperm.length_eq]; omega)
  · intro h2 g hg
    rw [hhist g]
    have h2' : 2 ≤ ll.length := h2
    have hg' : g ∈ ll := hg
    have hlen2 : 2 ≤ (f :: s.lru).length := by
      rw [← hperm.length_eq]
      exact h2'
    exact hsort'.2 hlen2 g ((hmemll g).mp hg' |>.elim (fun h => h ▸ List.mem_cons_self f s.lru) (fun h => List.mem_cons.mpr (Or.inr h)))
  · intro g hg
    rcases (hmemll g).mp hg with he | hg'
    · subst he
      exact ⟨List.mem_cons_self _ _, List.mem_cons_self _ _⟩
    · rcases hi1.dictL g (by rw [hulru]; exact hg') with ⟨hp, hv⟩
      rw [hudP] at hp
      rw [hudV] at hv
      exact ⟨List.mem_cons.mpr (Or.inr hp), List.mem_cons.mpr (Or.inr hv)⟩

end LRUK

namespace LRUK

theorem inv_se_erase_klist {s : RState} {f : Nat} {nd : LNode}
    (hi : Inv s) (hnd : node? (ensureNode s f) f = some nd)
    (hev : nd.ev = true) (hm : f ∈ s.klist) :
    Inv { ensureNode s f with
          nodes := setN (ensureNode s f).nodes f { nd with ev := false },
          klist := s.klist.erase f, dictP := s.dictP.erase f,
          dictV := s.dictV.erase f, curr := s.curr - 1 } := by
  have hi1 := inv_ensure hi f
  set u := ensureNode s f with hu
  set t : RState := { u with nodes := setN u.nodes f { nd with ev := false }, klist := s.klist.erase f, dictP := s.dictP.erase f, dictV := s.dictV.erase f, curr := s.curr - 1 } with htt
  have hukl : u.klist = s.klist := ensureNode_klist s f
  have hulru : u.lru = s.lru := ensureNode_lru s f
  have huK : u.K = s.K := ensureNode_K s f
  have hucurr : u.curr = s.curr := ensureNode_curr s f
  have hudP : u.dictP = s.dictP := ensureNode_dictP s f
  have hudV : u.dictV = s.dictV := ensureNode_dictV s f
  have hself : node? t f = some { nd with ev := false } := node?_upd_self rfl
  have hother : ∀ g, g ≠ f → node? t g = node? u g := fun g hg => node?_upd_ne rfl hg
  have hflru : f ∉ s.lru := by
    intro hf
    exact hi1.disj f (by rw [hulru]; exact hf) (by rw [hukl]; exact hm)
  have hklND : s.klist.Nodup := by rw [← hukl]; exact hi1.klND
  have hmemerase : ∀ g, g ∈ s.klist.erase f → g ≠ f ∧ g ∈ s.klist := by
    intro g hg
    refine ⟨?_, List.mem_of_mem_erase hg⟩
    intro he
    subst he
    exact (List.Nodup.not_mem_erase hklND) hg
  have hkeys : ∀ g, oldestKey t g = oldestKey u g := by
    intro g
    by_cases hg : g = f
    · subst hg
      simp [oldestKey, histOf, hself, hnd]
    · exact oldestKey_congr (hother g hg)
  have hhist : ∀ g, histOf t g = histOf u g := by
    intro g
    by_cases hg : g = f
    · subst hg
      simp [histOf, hself, hnd]
    · exact histOf_congr (hother g hg)
  constructor
  · exact hi1.lruND
  · exact hklND.erase f
  · intro g hg hgk
    rcases hmemerase g hgk with ⟨hgne, hgk'⟩
    exact hi1.disj g hg (by rw [hukl]; exact hgk')
  · intro g hg
    have hgne : g ≠ f := by
      intro he
      subst he
      exact hflru (by rw [← hulru]; exact hg)
    rcases hi1.lruMem g hg with ⟨ng, hng, hevg, hkg⟩
    exact ⟨ng, by rw [hother g hgne]; exact hng, hevg, hkg⟩
  · intro g hgk
    rcases hmemerase g hgk with ⟨hgne, hgk'⟩
    rcases hi1.klMem g (by rw [hukl]; exact hgk') with ⟨ng, hng, hevg, hkg⟩
    exact ⟨ng, by rw [hother g hgne]; exact hng, hevg, hkg⟩
  · intro g ng hng hevg
    by_cases hgf : g = f
    · rw [hgf, hself] at hng
      cases hng
      cases hevg
    · rw [hother g hgf] at hng
      rcases hi1.evCom g ng hng hevg with hg | hg
      · exact Or.inl hg
      · exact Or.inr ((List.mem_erase_of_ne hgf).mpr (by rw [← hukl]; exact hg))
  · show s.curr - 1 = u.lru.length + (s.klist.erase f).length
    have h2 := List.length_erase_of_mem hm
    have h3 : 1 ≤ s.klist.length := List.length_pos.mpr (List.ne_nil_of_mem hm)
    have hc : u.curr = u.lru.length + u.klist.length := hi1.currEq
    rw [hucurr, hukl] at hc
    omega
  · intro g ng hng
    by_cases hgf : g = f
    · rw [hgf, hself] at hng
      cases hng
      exact hi1.kLE f nd hnd
    · rw [hother g hgf] at hng
      exact hi1.kLE g ng hng
  · intro g ng hng t' ht'
    by_cases hgf : g = f
    · rw [hgf, hself] at hng
      cases hng
      exact hi1.tsB f nd hnd t' ht'
    · rw [hother g hgf] at hng
      exact hi1.tsB g ng hng t' ht'
  · intro g g' ng ng' hne hng hng'
    by_cases hgf : g = f
    · rw [hgf, hself] at hng
      cases hng
      intro t' ht'
      by_cases hgf' : g' = f
      · exact absurd (hgf.trans hgf'.symm) hne
      · rw [hother g' hgf'] at hng'
        rw [hgf] at hne
        exact hi1.tsD f g' nd ng' hne hnd hng' t' ht'
    · by_cases hgf' : g' = f
      · rw [hgf', hself] at hng'
        cases hng'
        rw [hother g hgf] at hng
        intro t' ht'
        rw [hgf'] at hne
        exact hi1.tsD g f ng nd hne hng hnd t' ht'
      · rw [hother g hgf] at hng
        rw [hother g' hgf'] at hng'
        exact hi1.tsD g g' ng ng' hne hng hng'
  · show u.lru.Pairwise (fun a b => oldestKey t b < oldestKey t a)
    exact pairwise_key_congr (fun g _ => hkeys g) hi1.lruSorted
  · intro h2 g hg
    rw [hhist g]
    exact hi1.lruNE2 h2 g hg
  · intro g hg
    have hgne : g ≠ f := by
      intro he
      subst he
      exact hflru (by rw [← hulru]; exact hg)
    rcases hi1.dictL g hg with ⟨hp, hv⟩
    rw [hudP] at hp
    rw [hudV] at hv
    exact ⟨(List.mem_erase_of_ne hgne).mpr hp, (List.mem_erase_of_ne hgne).mpr hv⟩

theorem inv_se_erase_lru {s : RState} {f : Nat} {nd : LNode}
    (hi : Inv s) (hnd : node? (ensureNode s f) f = some nd)
    (hev : nd.ev = true) (hm : f ∈ s.lru) :
    Inv { ensureNode s f with
          nodes := setN (ensureNode s f).nodes f { nd with ev := false },
          lru := s.lru.erase f, dictP := s.dictP.erase f,
          dictV := s.dictV.erase f, curr := s.curr - 1 } := by
  have hi1 := inv_ensure hi f
  set u := ensureNode s f with hu
  set t : RState := { u with nodes := setN u.nodes f { nd with ev := false }, lru := s.lru.erase f, dictP := s.dictP.erase f, dictV := s.dictV.erase f, curr := s.curr - 1 } with htt
  have hukl : u.klist = s.klist := ensureNode_klist s f
  have hulru : u.lru = s.lru := ensureNode_lru s f
  have huK : u.K = s.K := ensureNode_K s f
  have hucurr : u.curr = s.curr := ensureNode_curr s f
  have hudP : u.dictP = s.dictP := ensureNode_dictP s f
  have hudV : u.dictV = s.dictV := ensureNode_dictV s f
  have hself : node? t f = some { nd with ev := false } := node?_upd_self rfl
  have hother : ∀ g, g ≠ f → node? t g = node? u g := fun g hg => node?_upd_ne rfl hg
  have hlruND : s.lru.Nodup := by rw [← hulru]; exact hi1.lruND
  have hfk : f ∉ s.klist := by
    intro hf
    exact hi1.disj f (by rw [hulru]; exact hm) (by rw [hukl]; exact hf)
  have hmemerase : ∀ g, g ∈ s.lru.erase f → g ≠ f ∧ g ∈ s.lru := by
    intro g hg
    refine ⟨?_, List.mem_of_mem_erase hg⟩
    intro he
    subst he
    exact (List.Nodup.not_mem_erase hlruND) hg
  have hkeys : ∀ g, oldestKey t g = oldestKey u g := by
    intro g
    by_cases hg : g = f
    · subst hg
      simp [oldestKey, histOf, hself, hnd]
    · exact oldestKey_congr (hother g hg)
  have hhist : ∀ g, histOf t g = histOf u g := by
    intro g
    by_cases hg : g = f
    · subst hg
      simp [histOf, hself, hnd]
    · exact histOf_congr (hother g hg)
  constructor
  · exact hlruND.erase f
  · exact hi1.klND
  · intro g hg hgk
    rcases hmemerase g hg with ⟨hgne, hg'⟩
    exact hi1.disj g (by rw [hulru]; exact hg') hgk
  · intro g hg
    rcases hmemerase g hg with ⟨hgne, hg'⟩
    rcases hi1.lruMem g (by rw [hulru]; exact hg') with ⟨ng, hng, hevg, hkg⟩
    exact ⟨ng, by rw [hother g hgne]; exact hng, hevg, hkg⟩
  · intro g hgk
    have hgne : g ≠ f := by
      intro he
      subst he
      exact hfk (by rw [← hukl]; exact hgk)
    rcases hi1.klMem g hgk with ⟨ng, hng, hevg, hkg⟩
    exact ⟨ng, by rw [hother g hgne]; exact hng, hevg, hkg⟩
  · intro g ng hng hevg
    by_cases hgf : g = f
    · rw [hgf, hself] at hng
      cases hng
      cases hevg
    · rw [hother g hgf] at hng
      rcases hi1.evCom g ng hng hevg with hg | hg
      · exact Or.inl ((List.mem_erase_of_ne hgf).mpr (by rw [← hulru]; exact hg))
      · exact Or.inr hg
  · show s.curr - 1 = (s.lru.erase f).length + u.klist.length
    have h2 := List.length_erase_of_mem hm
    have h3 : 1 ≤ s.lru.length := List.length_pos.mpr (List.ne_nil_of_mem hm)
    have hc : u.curr = u.lru.length + u.klist.length := hi1.currEq
    rw [hucurr, hulru] at hc
    omega
  · intro g ng hng
    by_cases hgf : g = f
    · rw [hgf, hself] at hng
      cases hng
      exact hi1.kLE f nd hnd
    · rw [hother g hgf] at hng
      exact hi1.kLE g ng hng
  · intro g ng hng t' ht'
    by_cases hgf : g = f
    · rw [hgf, hself] at hng
      cases hng
      exact hi1.tsB f nd hnd t' ht'
    · rw [hother g hgf] at hng
      exact hi1.tsB g ng hng t' ht'
  · intro g g' ng ng' hne hng hng'
    by_cases hgf : g = f
    · rw [hgf, hself] at hng
      cases hng
      intro t' ht'
      by_cases hgf' : g' = f
      · exact absurd (hgf.trans hgf'.symm) hne
      · rw [hother g' hgf'] at hng'
        rw [hgf] at hne
        exact hi1.tsD f g' nd ng' hne hnd hng' t' ht'
    · by_cases hgf' : g' = f
      · rw [hgf', hself] at hng'
        cases hng'
        rw [hother g hgf] at hng
        intro t' ht'
        rw [hgf'] at hne
        exact hi1.tsD g f ng nd hne hng hnd t' ht'
      · rw [hother g hgf] at hng
        rw [hother g' hgf'] at hng'
        exact hi1.tsD g g' ng ng' hne hng hng'
  · show (s.lru.erase f).Pairwise (fun a b => oldestKey t b < oldestKey t a)
    refine pairwise_key_congr ?_ (hi1.lruSorted.sublist (by rw [hulru]; exact s.lru.erase_sublist f))
    intro g hg
    exact hkeys g
  · intro h2 g hg
    rcases hmemerase g hg with ⟨hgne, hg'⟩
    rw [hhist g]
    have h2' : 2 ≤ (s.lru.erase f).length := h2
    have hle := (s.lru.erase_sublist f).length_le
    refine hi1.lruNE2 ?_ g (by rw [hulru]; exact hg')
    rw [hulru]
    omega
  · intro g hg
    rcases hmemerase g hg with ⟨hgne, hg'⟩
    rcases hi1.dictL g (by rw [hulru]; exact hg') with ⟨hp, hv⟩
    rw [hudP] at hp
    rw [hudV] at hv
    exact ⟨(List.mem_erase_of_ne hgne).mpr hp, (List.mem_erase_of_ne hgne).mpr hv⟩

end LRUK

namespace LRUK

theorem inv_se {s s' : RState} {f : Nat} {b : Bool} (hi : Inv s)
    (h : SetEvictable s f b = some s') : Inv s' := by
  rw [SetEvictable] at h
  by_cases hf : f < s.numFrames
  · rw [if_pos hf] at h
    cases hnd : node? (ensureNode s f) f with
    | none =>
      simp only [hnd] at h
      exact Option.noConfusion h
    | some nd =>
      simp only [hnd] at h
      by_cases hbe : b = nd.ev
      · rw [if_pos hbe] at h
        injection h with h
        exact h ▸ inv_ensure hi f
      · rw [if_neg hbe] at h
        by_cases hbt : b = true
        · rw [if_pos hbt] at h
          subst hbt
          have hev : nd.ev = false := by
            cases hne : nd.ev
            · rfl
            · exact absurd hne.symm hbe
          by_cases hk : nd.k = s.K
          · rw [if_pos hk] at h
            cases hsort : sortGuard (ensureNode s f) (newestKey (ensureNode s f)) (f :: s.klist) with
            | none =>
              simp only [hsort] at h
              exact Option.noConfusion h
            | some kl =>
              simp only [hsort] at h
              injection h with h
              exact h ▸ inv_se_insert_klist hi hnd hev hk hsort
          · rw [if_neg hk] at h
            cases hsort : sortGuard (ensureNode s f) (oldestKey (ensureNode s f)) (f :: s.lru) with
            | none =>
              simp only [hsort] at h
              exact Option.noConfusion h
            | some ll =>
              simp only [hsort] at h
              injection h with h
              exact h ▸ inv_se_insert_lru hi hnd hev hk hsort
        · rw [if_neg hbt] at h
          have hbf : b = false := by
            cases b
            · rfl
            · exact absurd rfl hbt
          subst hbf
          have hev : nd.ev = true := by
            cases hne : nd.ev
            · exact absurd hne.symm hbe
            · rfl
          by_cases hd : f ∈ s.dictP ∧ f ∈ s.dictV
          · rw [if_pos hd] at h
            by_cases hk : nd.k = s.K
            · rw [if_pos hk] at h
              by_cases hm : f ∈ s.klist
              · rw [if_pos hm] at h
                injection h with h
                exact h ▸ inv_se_erase_klist hi hnd hev hm
              · rw [if_neg hm] at h
                exact Option.noConfusion h
            · rw [if_neg hk] at h
              by_cases hm : f ∈ s.lru
              · rw [if_pos hm] at h
                injection h with h
                exact h ▸ inv_se_erase_lru hi hnd hev hm
              · rw [if_neg hm] at h
                exact Option.noConfusion h
          · rw [if_neg hd] at h
            exact Option.noConfusion h
  · rw [if_neg hf] at h
    exact Option.noConfusion h

end LRUK

namespace LRUK

theorem mem_of_mem_dropLast {x : Nat} {h : List Nat} (hx : x ∈ h.dropLast) : x ∈ h :=
  (List.dropLast_sublist h).subset hx

theorem inv_ra_full_noev {s : RState} {f : Nat} {nd : LNode}
    (hi : Inv s) (hnd : node? (ensureNode s f) f = some nd)
    (hlen : nd.k = nd.history.length) (hkK : nd.k = s.K) (hev : nd.ev = false) :
    Inv { ensureNode s f with
          nodes := setN (ensureNode s f).nodes f { nd with history := s.ts :: nd.history.dropLast },
          ts := s.ts + 1 } := by
  have hi1 := inv_ensure hi f
  set u := ensureNode s f with hu
  set t : RState := { u with nodes := setN u.nodes f { nd with history := s.ts :: nd.history.dropLast }, ts := s.ts + 1 } with htt
  have hukl : u.klist = s.klist := ensureNode_klist s f
  have hulru : u.lru = s.lru := ensureNode_lru s f
  have huts : u.ts = s.ts := ensureNode_ts s f
  have hself : node? t f = some { nd with history := s.ts :: nd.history.dropLast } :=
    node?_upd_self rfl
  have hother : ∀ g, g ≠ f → node? t g = node? u g := fun g hg => node?_upd_ne rfl hg
  have hflru : f ∉ u.lru := by
    intro hm
    rcases hi1.lruMem f hm with ⟨nd', hnd', hev', _⟩
    rw [hnd] at hnd'
    cases hnd'
    rw [hev] at hev'
    cases hev'
  have hfkl : f ∉ u.klist := by
    intro hm
    rcases hi1.klMem f hm with ⟨nd', hnd', hev', _⟩
    rw [hnd] at hnd'
    cases hnd'
    rw [hev] at hev'
    cases hev'
  constructor
  · exact hi1.lruND
  · exact hi1.klND
  · exact hi1.disj
  · intro g hg
    have hgne : g ≠ f := fun he => hflru (he ▸ hg)
    rcases hi1.lruMem g hg with ⟨ng, hng, hevg, hkg⟩
    exact ⟨ng, by rw [hother g hgne]; exact hng, hevg, hkg⟩
  · intro g hg
    have hgne : g ≠ f := fun he => hfkl (he ▸ hg)
    rcases hi1.klMem g hg with ⟨ng, hng, hevg, hkg⟩
    exact ⟨ng, by rw [hother g hgne]; exact hng, hevg, hkg⟩
  · intro g ng hng hevg
    by_cases hgf : g = f
    · rw [hgf, hself] at hng
      cases hng
      rw [hev] at hevg
      cases hevg
    · rw [hother g hgf] at hng
      exact hi1.evCom g ng hng hevg
  · exact hi1.currEq
  · intro g ng hng
    by_cases hgf : g = f
    · rw [hgf, hself] at hng
      cases hng
      exact hi1.kLE f nd hnd
    · rw [hother g hgf] at hng
      exact hi1.kLE g ng hng
  · intro g ng hng t' ht'
    show t' < s.ts + 1
    by_cases hgf : g = f
    · rw [hgf, hself] at hng
      cases hng
      rcases List.mem_cons.mp ht' with ht' | ht'
      · omega
      · have := hi1.tsB f nd hnd t' (mem_of_mem_dropLast ht')
        rw [huts] at this
        omega
    · rw [hother g hgf] at hng
      have := hi1.tsB g ng hng t' ht'
      rw [huts] at this
      omega
  · intro g g' ng ng' hne hng hng'
    by_cases hgf : g = f
    · rw [hgf, hself] at hng
      cases hng
      intro t' ht'
      by_cases hgf' : g' = f
      · exact absurd (hgf.trans hgf'.symm) hne
      · rw [hother g' hgf'] at hng'
        rcases List.mem_cons.mp ht' with ht' | ht'
        · subst ht'
          intro hmem
          have := hi1.tsB g' ng' hng' s.ts hmem
          rw [huts] at this
          omega
        · rw [hgf] at hne
          exact hi1.tsD f g' nd ng' hne hnd hng' t' (mem_of_mem_dropLast ht')
    · by_cases hgf' : g' = f
      · rw [hgf', hself] at hng'
        cases hng'
        rw [hother g hgf] at hng
        intro t' ht' hmem
        rcases List.mem_cons.mp hmem with hm | hm
        · subst hm
          have := hi1.tsB g ng hng s.ts ht'
          rw [huts] at this
          omega
        · rw [hgf'] at hne
          exact hi1.tsD g f ng nd hne hng hnd t' ht' (mem_of_mem_dropLast hm)
      · rw [hother g hgf] at hng
        rw [hother g' hgf'] at hng'
        exact hi1.tsD g g' ng ng' hne hng hng'
  · show u.lru.Pairwise (fun a b => oldestKey t b < oldestKey t a)
    refine pairwise_key_congr ?_ hi1.lruSorted
    intro g hg
    exact oldestKey_congr (hother g (fun he => hflru (he ▸ hg)))
  · intro h2 g hg
    rw [histOf_congr (hother g (fun he => hflru (he ▸ hg)))]
    exact hi1.lruNE2 h2 g hg
  · exact hi1.dictL

theorem inv_ra_full_ev {s : RState} {f : Nat} {nd : LNode}
    (hi : Inv s) (hnd : node? (ensureNode s f) f = some nd)
    (hlen : nd.k = nd.history.length) (hkK : nd.k = s.K) (hev : nd.ev = true)
    (hm : f ∈ s.klist) :
    Inv { ensureNode s f with
          nodes := setN (ensureNode s f).nodes f { nd with history := s.ts :: nd.history.dropLast },
          ts := s.ts + 1, klist := f :: s.klist.erase f } := by
  have hi1 := inv_ensure hi f
  set u := ensureNode s f with hu
  set t : RState := { u with nodes := setN u.nodes f { nd with history := s.ts :: nd.history.dropLast }, ts := s.ts + 1, klist := f :: s.klist.erase f } with htt
  have hukl : u.klist = s.klist := ensureNode_klist s f
  have hulru : u.lru = s.lru := ensureNode_lru s f
  have huK : u.K = s.K := ensureNode_K s f
  have huts : u.ts = s.ts := ensureNode_ts s f
  have hself : node? t f = some { nd with history := s.ts :: nd.history.dropLast } :=
    node?_upd_self rfl
  have hother : ∀ g, g ≠ f → node? t g = node? u g := fun g hg => node?_upd_ne rfl hg
  have hklND : s.klist.Nodup := by rw [← hukl]; exact hi1.klND
  have hflru : f ∉ u.lru := by
    intro hf
    exact hi1.disj f hf (by rw [hukl]; exact hm)
  have hmemerase : ∀ g, g ∈ s.klist.erase f → g ≠ f ∧ g ∈ s.klist := by
    intro g hg
    refine ⟨?_, List.mem_of_mem_erase hg⟩
    intro he
    subst he
    exact (List.Nodup.not_mem_erase hklND) hg
  have hmemkl : ∀ x, x ∈ f :: s.klist.erase f ↔ x = f ∨ x ∈ s.klist.erase f := fun x =>
    List.mem_cons
  constructor
  · exact hi1.lruND
  · exact List.nodup_cons.mpr ⟨List.Nodup.not_mem_erase hklND, hklND.erase f⟩
  · intro g hg hgk
    have hgne : g ≠ f := fun he => hflru (he ▸ hg)
    rcases (hmemkl g).mp hgk with he | hgk'
    · exact hgne he
    · exact hi1.disj g hg (by rw [hukl]; exact (hmemerase g hgk').2)
  · intro g hg
    have hgne : g ≠ f := fun he => hflru (he ▸ hg)
    rcases hi1.lruMem g hg with ⟨ng, hng, hevg, hkg⟩
    exact ⟨ng, by rw [hother g hgne]; exact hng, hevg, hkg⟩
  · intro g hgk
    rcases (hmemkl g).mp hgk with he | hgk'
    · rw [he]
      refine ⟨{ nd with history := s.ts :: nd.history.dropLast }, hself, hev, ?_⟩
      show nd.k = u.K
      rw [huK]
      exact hkK
    · rcases hmemerase g hgk' with ⟨hgne, hgm⟩
      rcases hi1.klMem g (by rw [hukl]; exact hgm) with ⟨ng, hng, hevg, hkg⟩
      exact ⟨ng, by rw [hother g hgne]; exact hng, hevg, hkg⟩
  · intro g ng hng hevg
    by_cases hgf : g = f
    · rw [hgf]
      exact Or.inr (List.mem_cons_self _ _)
    · rw [hother g hgf] at hng
      rcases hi1.evCom g ng hng hevg with hg | hg
      · exact Or.inl hg
      · refine Or.inr (List.mem_cons.mpr (Or.inr ?_))
        refine (List.mem_erase_of_ne hgf).mpr ?_
        rw [← hukl]
        exact hg
  · show u.curr = u.lru.length + (f :: s.klist.erase f).length
    have hc : u.curr = u.lru.length + u.klist.length := hi1.currEq
    have h2 := List.length_erase_of_mem hm
    have h3 : 1 ≤ s.klist.length := List.length_pos.mpr (List.ne_nil_of_mem hm)
    rw [hukl] at hc
    simp only [List.length_cons]
    omega
  · intro g ng hng
    by_cases hgf : g = f
    · rw [hgf, hself] at hng
      cases hng
      exact hi1.kLE f nd hnd
    · rw [hother g hgf] at hng
      exact hi1.kLE g ng hng
  · intro g ng hng t' ht'
    show t' < s.ts + 1
    by_cases hgf : g = f
    · rw [hgf, hself] at hng
      cases hng
      rcases List.mem_cons.mp ht' with ht' | ht'
      · omega
      · have := hi1.tsB f nd hnd t' (mem_of_mem_dropLast ht')
        rw [huts] at this
        omega
    · rw [hother g hgf] at hng
      have := hi1.tsB g ng hng t' ht'
      rw [huts] at this
      omega
  · intro g g' ng ng' hne hng hng'
    by_cases hgf : g = f
    · rw [hgf, hself] at hng
      cases hng
      intro t' ht'
      by_cases hgf' : g' = f
      · exact absurd (hgf.trans hgf'.symm) hne
      · rw [hother g' hgf'] at hng'
        rcases List.mem_cons.mp ht' with ht' | ht'
        · subst ht'
          intro hmem
          have := hi1.tsB g' ng' hng' s.ts hmem
          rw [huts] at this
          omega
        · rw [hgf] at hne
          exact hi1.tsD f g' nd ng' hne hnd hng' t' (mem_of_mem_dropLast ht')
    · by_cases hgf' : g' = f
      · rw [hgf', hself] at hng'
        cases hng'
        rw [hother g hgf] at hng
        intro t' ht' hmem
        rcases List.mem_cons.mp hmem with hm' | hm'
        · subst hm'
          have := hi1.tsB g ng hng s.ts ht'
          rw [huts] at this
          omega
        · rw [hgf'] at hne
          exact hi1.tsD g f ng nd hne hng hnd t' ht' (mem_of_mem_dropLast hm')
      · rw [hother g hgf] at hng
        rw [hother g' hgf'] at hng'
        exact hi1.tsD g g' ng ng' hne hng hng'
  · show u.lru.Pairwise (fun a b => oldestKey t b < oldestKey t a)
    refine pairwise_key_congr ?_ hi1.lruSorted
    intro g hg
    exact oldestKey_congr (hother g (fun he => hflru (he ▸ hg)))
  · intro h2 g hg
    rw [histOf_congr (hother g (fun he => hflru (he ▸ hg)))]
    exact hi1.lruNE2 h2 g hg
  · exact hi1.dictL

end LRUK

namespace LRUK

theorem inv_ra_splice {s : RState} {f : Nat} {nd : LNode}
    (hi : Inv s) (hnd : node? (ensureNode s f) f = some nd)
    (hk1 : nd.k + 1 = s.K) (hev : nd.ev = true) (hm : f ∈ s.lru) :
    Inv { ensureNode s f with
          nodes := setN (ensureNode s f).nodes f { nd with k := nd.k + 1, history := s.ts :: nd.history },
          ts := s.ts + 1, klist := f :: s.klist, lru := s.lru.erase f } := by
  have hi1 := inv_ensure hi f
  set u := ensureNode s f with hu
  set t : RState := { u with nodes := setN u.nodes f { nd with k := nd.k + 1, history := s.ts :: nd.history }, ts := s.ts + 1, klist := f :: s.klist, lru := s.lru.erase f } with htt
  have hukl : u.klist = s.klist := ensureNode_klist s f
  have hulru : u.lru = s.lru := ensureNode_lru s f
  have huK : u.K = s.K := ensureNode_K s f
  have huts : u.ts = s.ts := ensureNode_ts s f
  have hudP : u.dictP = s.dictP := ensureNode_dictP s f
  have hudV : u.dictV = s.dictV := ensureNode_dictV s f
  have hself : node? t f = some { nd with k := nd.k + 1, history := s.ts :: nd.history } :=
    node?_upd_self rfl
  have hother : ∀ g, g ≠ f → node? t g = node? u g := fun g hg => node?_upd_ne rfl hg
  have hlruND : s.lru.Nodup := by rw [← hulru]; exact hi1.lruND
  have hfk : f ∉ s.klist := by
    intro hf
    exact hi1.disj f (by rw [hulru]; exact hm) (by rw [hukl]; exact hf)
  have hmemerase : ∀ g, g ∈ s.lru.erase f → g ≠ f ∧ g ∈ s.lru := by
    intro g hg
    refine ⟨?_, List.mem_of_mem_erase hg⟩
    intro he
    subst he
    exact (List.Nodup.not_mem_erase hlruND) hg
  constructor
  · exact hlruND.erase f
  · exact List.nodup_cons.mpr ⟨hfk, by rw [← hukl]; exact hi1.klND⟩
  · intro g hg hgk
    rcases hmemerase g hg with ⟨hgne, hg'⟩
    rcases List.mem_cons.mp hgk with he | hgk'
    · exact hgne he
    · exact hi1.disj g (by rw [hulru]; exact hg') (by rw [hukl]; exact hgk')
  · intro g hg
    rcases hmemerase g hg with ⟨hgne, hg'⟩
    rcases hi1.lruMem g (by rw [hulru]; exact hg') with ⟨ng, hng, hevg, hkg⟩
    exact ⟨ng, by rw [hother g hgne]; exact hng, hevg, hkg⟩
  · intro g hgk
    rcases List.mem_cons.mp hgk with he | hgk'
    · rw [he]
      refine ⟨{ nd with k := nd.k + 1, history := s.ts :: nd.history }, hself, hev, ?_⟩
      show nd.k + 1 = u.K
      rw [huK]
      exact hk1
    · have hgne : g ≠ f := by
        intro he
        subst he
        exact hfk hgk'
      rcases hi1.klMem g (by rw [hukl]; exact hgk') with ⟨ng, hng, hevg, hkg⟩
      exact ⟨ng, by rw [hother g hgne]; exact hng, hevg, hkg⟩
  · intro g ng hng hevg
    by_cases hgf : g = f
    · rw [hgf]
      exact Or.inr (List.mem_cons_self _ _)
    · rw [hother g hgf] at hng
      rcases hi1.evCom g ng hng hevg with hg | hg
      · exact Or.inl ((List.mem_erase_of_ne hgf).mpr (by rw [← hulru]; exact hg))
      · exact Or.inr (List.mem_cons.mpr (Or.inr (by rw [← hukl]; exact hg)))
  · show u.curr = (s.lru.erase f).length + (f :: s.klist).length
    have hc : u.curr = u.lru.length + u.klist.length := hi1.currEq
    have h2 := List.length_erase_of_mem hm
    have h3 : 1 ≤ s.lru.length := List.length_pos.mpr (List.ne_nil_of_mem hm)
    rw [hukl, hulru] at hc
    simp only [List.length_cons]
    omega
  · intro g ng hng
    by_cases hgf : g = f
    · rw [hgf, hself] at hng
      cases hng
      show nd.k + 1 ≤ u.K
      rw [huK]
      omega
    · rw [hother g hgf] at hng
      exact hi1.kLE g ng hng
  · intro g ng hng t' ht'
    show t' < s.ts + 1
    by_cases hgf : g = f
    · rw [hgf, hself] at hng
      cases hng
      rcases List.mem_cons.mp ht' with ht' | ht'
      · omega
      · have := hi1.tsB f nd hnd t' ht'
        rw [huts] at this
        omega
    · rw [hother g hgf] at hng
      have := hi1.tsB g ng hng t' ht'
      rw [huts] at this
      omega
  · intro g g' ng ng' hne hng hng'
    by_cases hgf : g = f
    · rw [hgf, hself] at hng
      cases hng
      intro t' ht'
      by_cases hgf' : g' = f
      · exact absurd (hgf.trans hgf'.symm) hne
      · rw [hother g' hgf'] at hng'
        rcases List.mem_cons.mp ht' with ht' | ht'
        · subst ht'
          intro hmem
          have := hi1.tsB g' ng' hng' s.ts hmem
          rw [huts] at this
          omega
        · rw [hgf] at hne
          exact hi1.tsD f g' nd ng' hne hnd hng' t' ht'
    · by_cases hgf' : g' = f
      · rw [hgf', hself] at hng'
        cases hng'
        rw [hother g hgf] at hng
        intro t' ht' hmem
        rcases List.mem_cons.mp hmem with hm' | hm'
        · subst hm'
          have := hi1.tsB g ng hng s.ts ht'
          rw [huts] at this
          omega
        · rw [hgf'] at hne
          exact hi1.tsD g f ng nd hne hng hnd t' ht' hm'
      · rw [hother g hgf] at hng
        rw [hother g' hgf'] at hng'
        exact hi1.tsD g g' ng ng' hne hng hng'
  · show (s.lru.erase f).Pairwise (fun a b => oldestKey t b < oldestKey t a)
    refine pairwise_key_congr ?_ (hi1.lruSorted.sublist (by rw [hulru]; exact s.lru.erase_sublist f))
    intro g hg
    exact oldestKey_congr (hother g (hmemerase g hg).1)
  · intro h2 g hg
    rcases hmemerase g hg with ⟨hgne, hg'⟩
    rw [histOf_congr (hother g hgne)]
    have h2' : 2 ≤ (s.lru.erase f).length := h2
    have hle := (s.lru.erase_sublist f).length_le
    refine hi1.lruNE2 ?_ g (by rw [hulru]; exact hg')
    rw [hulru]
    omega
  · intro g hg
    rcases hmemerase g hg with ⟨hgne, hg'⟩
    exact hi1.dictL g (by rw [hulru]; exact hg')

theorem inv_ra_tick {s : RState} {f : Nat} {nd : LNode}
    (hi : Inv s) (hnd : node? (ensureNode s f) f = some nd)
    (hkK : ¬nd.k = s.K) (hsafe : nd.ev = false ∨ ¬nd.k + 1 = s.K) :
    Inv { ensureNode s f with
          nodes := setN (ensureNode s f).nodes f { nd with k := nd.k + 1, history := s.ts :: nd.history },
          ts := s.ts + 1 } := by
  have hi1 := inv_ensure hi f
  set u := ensureNode s f with hu
  set t : RState := { u with nodes := setN u.nodes f { nd with k := nd.k + 1, history := s.ts :: nd.history }, ts := s.ts + 1 } with htt
  have hukl : u.klist = s.klist := ensureNode_klist s f
  have hulru : u.lru = s.lru := ensureNode_lru s f
  have huK : u.K = s.K := ensureNode_K s f
  have huts : u.ts = s.ts := ensureNode_ts s f
  have hself : node? t f = some { nd with k := nd.k + 1, history := s.ts :: nd.history } :=
    node?_upd_self rfl
  have hother : ∀ g, g ≠ f → node? t g = node? u g := fun g hg => node?_upd_ne rfl hg
  have hfkl : f ∉ u.klist := by
    intro hf
    rcases hi1.klMem f hf with ⟨nd', hnd', _, hk'⟩
    rw [hnd] at hnd'
    cases hnd'
    rw [huK] at hk'
    exact hkK hk'
  have hhistf : histOf u f = nd.history := by simp [histOf, hnd]
  constructor
  · exact hi1.lruND
  · exact hi1.klND
  · exact hi1.disj
  · intro g hg
    by_cases hgf : g = f
    · rcases hi1.lruMem g hg with ⟨ng, hng, hevg, hkg⟩
      rw [hgf] at hng
      rw [hnd] at hng
      cases hng
      rw [hgf, hself]
      refine ⟨{ nd with k := nd.k + 1, history := s.ts :: nd.history }, rfl, hevg, ?_⟩
      show nd.k + 1 < u.K
      rcases hsafe with hs | hs
      · rw [hs] at hevg
        cases hevg
      · rw [huK] at hkg ⊢
        omega
    · rcases hi1.lruMem g hg with ⟨ng, hng, hevg, hkg⟩
      exact ⟨ng, by rw [hother g hgf]; exact hng, hevg, hkg⟩
  · intro g hg
    have hgne : g ≠ f := fun he => hfkl (he ▸ hg)
    rcases hi1.klMem g hg with ⟨ng, hng, hevg, hkg⟩
    exact ⟨ng, by rw [hother g hgne]; exact hng, hevg, hkg⟩
  · intro g ng hng hevg
    by_cases hgf : g = f
    · rw [hgf, hself] at hng
      cases hng
      rw [hgf]
      exact hi1.evCom f nd hnd hevg
    · rw [hother g hgf] at hng
      exact hi1.evCom g ng hng hevg
  · exact hi1.currEq
  · intro g ng hng
    by_cases hgf : g = f
    · rw [hgf, hself] at hng
      cases hng
      show nd.k + 1 ≤ u.K
      have := hi1.kLE f nd hnd
      rw [huK] at this ⊢
      omega
    · rw [hother g hgf] at hng
      exact hi1.kLE g ng hng
  · intro g ng hng t' ht'
    show t' < s.ts + 1
    by_cases hgf : g = f
    · rw [hgf, hself] at hng
      cases hng
      rcases List.mem_cons.mp ht' with ht' | ht'
      · omega
      · have := hi1.tsB f nd hnd t' ht'
        rw [huts] at this
        omega
    · rw [hother g hgf] at hng
      have := hi1.tsB g ng hng t' ht'
      rw [huts] at this
      omega
  · intro g g' ng ng' hne hng hng'
    by_cases hgf : g = f
    · rw [hgf, hself] at hng
      cases hng
      intro t' ht'
      by_cases hgf' : g' = f
      · exact absurd (hgf.trans hgf'.symm) hne
      · rw [hother g' hgf'] at hng'
        rcases List.mem_cons.mp ht' with ht' | ht'
        · subst ht'
          intro hmem
          have := hi1.tsB g' ng' hng' s.ts hmem
          rw [huts] at this
          omega
        · rw [hgf] at hne
          exact hi1.tsD f g' nd ng' hne hnd hng' t' ht'
    · by_cases hgf' : g' = f
      · rw [hgf', hself] at hng'
        cases hng'
        rw [hother g hgf] at hng
        intro t' ht' hmem
        rcases List.mem_cons.mp hmem with hm' | hm'
        · subst hm'
          have := hi1.tsB g ng hng s.ts ht'
          rw [huts] at this
          omega
        · rw [hgf'] at hne
          exact hi1.tsD g f ng nd hne hng hnd t' ht' hm'
      · rw [hother g hgf] at hng
        rw [hother g' hgf'] at hng'
        exact hi1.tsD g g' ng ng' hne hng hng'
  · show u.lru.Pairwise (fun a b => oldestKey t b < oldestKey t a)
    by_cases hfl : f ∈ u.lru
    · by_cases hh : nd.history = []
      · have hlen1 : ¬2 ≤ u.lru.length := by
          intro h2
          have := hi1.lruNE2 h2 f hfl
          rw [hhistf, hh] at this
          exact this rfl
        exact pairwise_of_subsingleton (by omega)
      · refine pairwise_key_congr ?_ hi1.lruSorted
        intro g hg
        by_cases hgf : g = f
        · rw [hgf]
          show (histOf t f).getLast?.getD 0 = (histOf u f).getLast?.getD 0
          have hht : histOf t f = s.ts :: nd.history := by simp [histOf, hself]
          rw [hht, hhistf, getLast?_cons_of_ne_nil hh]
        · exact oldestKey_congr (hother g hgf)
    · refine pairwise_key_congr ?_ hi1.lruSorted
      intro g hg
      exact oldestKey_congr (hother g (fun he => hfl (he ▸ hg)))
  · intro h2 g hg
    by_cases hgf : g = f
    · rw [hgf]
      show histOf t f ≠ []
      have hht : histOf t f = s.ts :: nd.history := by simp [histOf, hself]
      rw [hht]
      exact List.cons_ne_nil _ _
    · rw [histOf_congr (hother g hgf)]
      exact hi1.lruNE2 h2 g hg
  · exact hi1.dictL

theorem ra_push_absurd {s : RState} {f : Nat} {nd : LNode}
    (hi : Inv s) (hnd : node? (ensureNode s f) f = some nd)
    (hev : nd.ev = true) (hkK : ¬nd.k = s.K) (hdP : f ∉ s.dictP) : False := by
  have hi1 := inv_ensure hi f
  rcases hi1.evCom f nd hnd hev with hm | hm
  · rcases hi1.dictL f hm with ⟨hp, _⟩
    rw [ensureNode_dictP] at hp
    exact hdP hp
  · rcases hi1.klMem f hm with ⟨nd', hnd', _, hk'⟩
    rw [hnd] at hnd'
    cases hnd'
    rw [ensureNode_K] at hk'
    exact hkK hk'

theorem inv_ra {s s' : RState} {f : Nat} (hi : Inv s)
    (h : RecordAccess s f = some s') : Inv s' := by
  rw [RecordAccess] at h
  by_cases hf : f < s.numFrames
  · rw [if_pos hf] at h
    cases hnd : node? (ensureNode s f) f with
    | none =>
      simp only [hnd] at h
      exact Option.noConfusion h
    | some nd =>
      simp only [hnd] at h
      by_cases hguard : nd.k ≤ s.K ∧ nd.k = nd.history.length
      · rw [if_pos hguard] at h
        by_cases hkK : nd.k = s.K
        · rw [if_pos hkK] at h
          by_cases hhe : nd.history = []
          · rw [if_pos hhe] at h
            exact Option.noConfusion h
          · rw [if_neg hhe] at h
            by_cases hev : nd.ev = true
            · rw [if_pos hev] at h
              by_cases hd : f ∈ s.dictP ∧ f ∈ s.dictV ∧ f ∈ s.klist
              · rw [if_pos hd] at h
                injection h with h
                exact h ▸ inv_ra_full_ev hi hnd hguard.2 hkK hev hd.2.2
              · rw [if_neg hd] at h
                exact Option.noConfusion h
            · rw [if_neg hev] at h
              injection h with h
              have hev' : nd.ev = false := by
                cases hne : nd.ev
                · rfl
                · exact absurd hne hev
              exact h ▸ inv_ra_full_noev hi hnd hguard.2 hkK hev'
        · rw [if_neg hkK] at h
          by_cases hev : nd.ev = true
          · rw [if_pos hev] at h
            by_cases hk1 : nd.k + 1 = s.K
            · rw [if_pos hk1] at h
              by_cases hd : f ∈ s.dictP ∧ f ∈ s.dictV ∧ f ∈ s.lru
              · rw [if_pos hd] at h
                injection h with h
                exact h ▸ inv_ra_splice hi hnd hk1 hev hd.2.2
              · rw [if_neg hd] at h
                exact Option.noConfusion h
            · rw [if_neg hk1] at h
              by_cases hdP : f ∈ s.dictP
              · rw [if_pos hdP] at h
                injection h with h
                exact h ▸ inv_ra_tick hi hnd hkK (Or.inr hk1)
              · rw [if_neg hdP] at h
                exact (ra_push_absurd hi hnd hev hkK hdP).elim
          · rw [if_neg hev] at h
            injection h with h
            have hev' : nd.ev = false := by
              cases hne : nd.ev
              · rfl
              · exact absurd hne hev
            exact h ▸ inv_ra_tick hi hnd hkK (Or.inl hev')
      · rw [if_neg hguard] at h
        exact Option.noConfusion h
  · rw [if_neg hf] at h
    exact Option.noConfusion h

theorem inv_reach {s : RState} (h : Reach s) : Inv s := by
  induction h with
  | init n k => exact inv_initR n k
  | ra s f s' _ hstep ih => exact inv_ra ih hstep
  | se s f b s' _ hstep ih => exact inv_se ih hstep
  | evt s r s' _ hstep ih => exact inv_evt ih hstep
  | rm s f s' _ hstep ih => exact inv_rm ih hstep

end LRUK

/-- **C5** (confirmed).  In every reachable replacer state in which some
evictable node has fewer than `K` recorded accesses (the warmup set is
non-empty), a successful `Evict` returns such a warmup node, and among the
evictable warmup nodes it returns the one with the strictly smallest oldest
recorded access timestamp (`history.back()`: classic LRU over the warmup
set). -/
theorem c5_evict_warmup_precedence (s : RState) (hr : LRUK.Reach s)
    (g0 : Nat) (hg0 : LRUK.warmupEvB s g0 = true)
    (f : Nat) (s' : RState) (hev : LRUK.Evict s = some (some f, s')) :
    LRUK.warmupEvB s f = true ∧
      ∀ g, LRUK.warmupEvB s g = true → g ≠ f →
        ∃ tf tg, (LRUK.histOf s f).getLast? = some tf ∧
          (LRUK.histOf s g).getLast? = some tg ∧ tf < tg := by
  have hi := LRUK.inv_reach hr
  have hwu : ∀ g, LRUK.warmupEvB s g = true → g ∈ s.lru := by
    intro g hg
    simp only [LRUK.warmupEvB] at hg
    cases hnd : LRUK.node? s g with
    | none =>
      rw [hnd] at hg
      cases hg
    | some nd =>
      rw [hnd] at hg
      rcases (Bool.and_eq_true _ _).mp hg with ⟨h1, h2⟩
      have hk : nd.k < s.K := of_decide_eq_true h2
      rcases hi.evCom g nd hnd h1 with hm | hm
      · exact hm
      · rcases hi.klMem g hm with ⟨nd', hnd', _, hk'⟩
        rw [hnd] at hnd'
        cases hnd'
        omega
  have hlne : s.lru ≠ [] := List.ne_nil_of_mem (hwu g0 hg0)
  have hc : ¬s.curr = 0 := by
    have h1 := hi.currEq
    have h2 := List.length_pos.mpr hlne
    omega
  rcases LRUK.getLast?_some_mem hlne with ⟨m, hm, hmmem⟩
  rcases hi.lruMem m hmmem with ⟨ndm, hndm, hevm, hkm⟩
  rw [LRUK.Evict, if_neg hc] at hev
  simp only [hm, hndm] at hev
  injection hev with hev
  injection hev with h1 h2
  have hfm : m = f := Option.some.inj h1
  subst hfm
  constructor
  · simp only [LRUK.warmupEvB, hndm, hevm, Bool.true_and]
    exact decide_eq_true hkm
  · intro g hg hgne
    have hgl := hwu g hg
    have hdec := LRUK.lru_decomp hm
    have hgdl : g ∈ s.lru.dropLast := LRUK.mem_dropLast_of_ne hdec hgl hgne
    have hlt : LRUK.oldestKey s m < LRUK.oldestKey s g := by
      have hp := hi.lruSorted
      rw [← hdec] at hp
      exact (List.pairwise_append.mp hp).2.2 g hgdl m (List.mem_singleton_self m)
    have h2l : 2 ≤ s.lru.length := LRUK.two_le_length_of_mem_ne hgl hmmem hgne
    have hnfm : LRUK.histOf s m ≠ [] := hi.lruNE2 h2l m hmmem
    have hnfg : LRUK.histOf s g ≠ [] := hi.lruNE2 h2l g hgl
    rcases LRUK.getLast?_some_mem hnfm with ⟨tf, htf, _⟩
    rcases LRUK.getLast?_some_mem hnfg with ⟨tg, htg, _⟩
    refine ⟨tf, tg, htf, htg, ?_⟩
    have e1 : LRUK.oldestKey s m = tf := by rw [LRUK.oldestKey, htf]; rfl
    have e2 : LRUK.oldestKey s g = tg := by rw [LRUK.oldestKey, htg]; rfl
    rw [e1, e2] at hlt
    exact hlt

/-- Witness for C5: the concrete reachable state `c5s2` (one access on
frame 0, then made evictable) has a warmup node, `Evict` succeeds there,
and the theorem applies. -/
theorem c5_evict_warmup_precedence_check : LRUK.warmupEvB c5s2 0 = true := by
  have h1 : LRUK.RecordAccess c5s0 0 = some c5s1 := by decide
  have h2 : LRUK.SetEvictable c5s1 0 true = some c5s2 := by decide
  have hreach : LRUK.Reach c5s2 :=
    LRUK.Reach.se c5s1 0 true c5s2
      (LRUK.Reach.ra c5s0 0 c5s1 (LRUK.Reach.init 1 2) h1) h2
  have hevt : LRUK.Evict c5s2 = some (some 0, c5s3) := by decide
  exact (c5_evict_warmup_precedence c5s2 hreach 0 (by decide) 0 c5s3 hevt).1
